import Mathlib

/-!
Shallow embedding of the dynamic interpreter of llreve
(src/reve/dynamic/interpreter/lib/Interpreter.cpp) together with proofs
about the claims of the specification.

The embedding models:
  - the dual-mode Integer value model (class Integer; its implementation file
    is not part of the analyzed sources, so its operations are modelled from
    the specification, section 4.1),
  - typed values (VarVal / VarInt / VarBool),
  - the interpreter state (FastState: variable bindings plus heap),
  - the instruction, PHI and terminator interpreters,
  - the block/function interpreters with the shared uint32 step budget,
  - the CBOR wire codec for call records.

Machine integers are modelled as Nat/Int with explicit reductions modulo
powers of two where the C++ code uses fixed-width arithmetic (uint32_t for
the step budget, APInt bit patterns for bounded integers).
-/

/-- Power of two used for uint32_t arithmetic of the step budget. -/
def u32Mod : Nat := 4294967296

/-- Reduction of a natural number into the uint32_t range. -/
def u32 (n : Nat) : Nat := n % u32Mod

/-- Addition of two uint32_t values (used for blocksVisited accumulation). -/
def u32add (a b : Nat) : Nat := (a + b) % u32Mod

/-- Subtraction of two uint32_t values with wraparound, as in the C++
expression maxSteps - blocksVisited on uint32_t operands (both < 2^32). -/
def u32sub (a b : Nat) : Nat := (a + u32Mod - b % u32Mod) % u32Mod

/-- Signed (two's-complement) reading of a bit pattern of the given width,
as llvm::APInt::getSExtValue does. -/
def toSigned (width : Nat) (bits : Nat) : Int :=
  if bits < 2 ^ (width - 1) then (bits : Int) else (bits : Int) - (2 ^ width : Nat)

/-- Bit pattern (mod 2^width) of an integer, the inverse direction of
toSigned. -/
def toPattern (width : Nat) (v : Int) : Nat := (v % ((2 ^ width : Nat) : Int)).toNat

/-- Modelled from the spec: the dual-mode Integer of section 3 (class Integer,
whose implementation is not among the analyzed sources). A Bounded integer is
a two's-complement bit pattern of a fixed width, an Unbounded integer is an
arbitrary-precision signed integer (mpz_class). -/
inductive Integer where
  | bounded (width : Nat) (bits : Nat)
  | unbounded (val : Int)
deriving Repr, DecidableEq

namespace Integer

/-- Modelled from the spec: the numeric (signed) value of an Integer, used by
the value-based equality that makes bounded and unbounded runs comparable
(spec sections 3 and 6). -/
def ival : Integer → Int
  | bounded w b => toSigned w b
  | unbounded v => v

/-- Modelled from the spec: equality on Integer (operator==), comparing by
numeric value so that the decimal wire encoding is mode-independent. -/
def ieq (a b : Integer) : Bool := ival a = ival b

/-- Modelled from the spec: addition (operator+). Matching modes are required
by the contract of section 4.1; a mixed-mode addition (a configuration error)
falls back to the numeric sum. -/
def add : Integer → Integer → Integer
  | bounded w a, bounded _ b => bounded w ((a + b) % 2 ^ w)
  | unbounded a, unbounded b => unbounded (a + b)
  | a, b => unbounded (ival a + ival b)

/-- Modelled from the spec: pointer coercion (asPointer), which in bounded
mode fixes the address width at 64 bits and in unbounded mode is the
identity (section 4.1). The mode is the global BoundedFlag. -/
def asPointer (mode : Bool) (i : Integer) : Integer :=
  if mode then bounded 64 (toPattern 64 (ival i)) else i

/-- Modelled from the spec: zero extension (APInt::zext requires a strictly
larger target width; on an unbounded integer width conversions have no
bit-level effect). -/
def zext (target : Nat) : Integer → Option Integer
  | bounded w b => if w < target then some (bounded target b) else none
  | unbounded v => some (unbounded v)

/-- Modelled from the spec: sign extension to a strictly larger width. -/
def sext (target : Nat) : Integer → Option Integer
  | bounded w b => if w < target then some (bounded target (toPattern target (toSigned w b))) else none
  | unbounded v => some (unbounded v)

/-- Modelled from the spec: zero-extension-or-truncation to an arbitrary
target width (APInt::zextOrTrunc). -/
def zextOrTrunc (target : Nat) : Integer → Integer
  | bounded w b => if w ≤ target then bounded target b else bounded target (b % 2 ^ target)
  | unbounded v => unbounded v

/-- Modelled from the spec: truncation to a smaller width (APInt::trunc). -/
def truncTo (target : Nat) : Integer → Integer
  | bounded _ b => bounded target (b % 2 ^ target)
  | unbounded v => unbounded (toSigned target (toPattern target v))

/-- Arithmetic shift right by 8 of a bit pattern of the given width,
mirroring APInt::ashr(8) as used by the store instruction. -/
def ashr8Pattern (w : Nat) (b : Nat) : Nat :=
  if b < 2 ^ (w - 1) then b / 2 ^ 8 else b / 2 ^ 8 + (2 ^ w - 2 ^ (w - 8))

end Integer

/-- Tag of a typed value (enum VarType). -/
inductive VarType where
  | int
  | bool
deriving Repr, DecidableEq

/-- Typed value (VarVal with subclasses VarInt and VarBool). -/
inductive VarVal where
  | int (val : Integer)
  | bool (val : Bool)
deriving Repr, DecidableEq

namespace VarVal

/-- Member getType of VarInt / VarBool. -/
def getType : VarVal → VarType
  | int _ => VarType.int
  | bool _ => VarType.bool

end VarVal

/-- Errors of the interpretation; every constructor models a condition under
which the C++ process stops (exit(1), an uncaught exception, a failed
assertion or undefined behaviour), plus fuel exhaustion of the model. -/
inductive IError where
  | intValOnBool
  | unboundValue
  | typeViolation
  | widthViolation
  | divisionByZero
  | malformedWire
  | outOfFuel
deriving Repr, DecidableEq

/-- Member unsafeIntVal of VarVal: the integer payload; on a VarBool the C++
implementation logs and calls exit(1), modelled as an error. -/
def VarVal.intVal : VarVal → Except IError Integer
  | int v => Except.ok v
  | bool _ => Except.error IError.intValOnBool

/-- Variable bindings of one call frame (FastVarMap): keys are llvm::Value
pointers, with the null pointer (ReturnName) as the distinguished return
sentinel; modelled as an association list keyed by Option Nat where none is
the sentinel. -/
abbrev FastVarMap := List (Option Nat × VarVal)

/-- Heap: std::map from HeapAddress (an Integer) to a stored Integer, with
key equivalence given by Integer::operator== / operator<; modelled as an
association list with value-based key equality. -/
abbrev Heap := List (Integer × Integer)

/-- Lookup of a binding (std::map::at / find). -/
def getVar (m : FastVarMap) (k : Option Nat) : Option VarVal :=
  match m with
  | [] => none
  | (k0, v0) :: rest => if k0 = k then some v0 else getVar rest k

/-- Assignment through operator[] of std::map: overwrite the binding if the
key is present, insert it otherwise. -/
def setVar (m : FastVarMap) (k : Option Nat) (v : VarVal) : FastVarMap :=
  match m with
  | [] => [(k, v)]
  | (k0, v0) :: rest =>
      if k0 = k then (k0, v) :: rest else (k0, v0) :: setVar rest k v

/-- Lookup in the heap by value-based key equality. -/
def heapGet (h : Heap) (k : Integer) : Option Integer :=
  match h with
  | [] => none
  | (k0, v0) :: rest => if Integer.ieq k0 k then some v0 else heapGet rest k

/-- Assignment through operator[] of the heap map. -/
def heapSet (h : Heap) (k : Integer) (v : Integer) : Heap :=
  match h with
  | [] => [(k, v)]
  | (k0, v0) :: rest =>
      if Integer.ieq k0 k then (k0, v) :: rest else (k0, v0) :: heapSet rest k v

/-- Insertion through std::map::insert: the resident value is kept if the key
is already present; the pair returned is the new heap together with the cell
the iterator points at. -/
def heapInsert (h : Heap) (k : Integer) (v : Integer) : Heap × Integer :=
  match heapGet h k with
  | some v0 => (h, v0)
  | none => (h ++ [(k, v)], v)

/-- Interpreter state (FastState): variable bindings (field variables in the
C++ source; vars here because variables is a reserved word in Lean) and the
heap; both are held by value and copied where the C++ code copies them. -/
structure FastState where
  vars : FastVarMap
  heap : Heap
deriving Repr, DecidableEq

/-- Operand of an instruction (llvm::Value): a reference to an instruction
result or argument (looked up in the bindings), an integer constant carrying
its bit width and bit pattern, or the null-pointer constant. -/
inductive IRValue where
  | ref (r : Nat)
  | constInt (width : Nat) (bits : Nat)
  | nullPtr
deriving Repr, DecidableEq

/-- Comparison predicates of interpretIntPredicate; unsupportedPred stands
for any predicate outside the ten supported ones (the default case). -/
inductive Predicate where
  | peq | pne | psge | psgt | psle | pslt | puge | pugt | pule | pult
  | unsupportedPred
deriving Repr, DecidableEq

/-- Binary opcodes of interpretIntBinOp / interpretBoolBinOp;
unsupportedOp stands for any opcode outside the supported set. -/
inductive BinOp where
  | add | sub | mul | sdiv | udiv | srem | urem
  | shl | lshr | ashr | bitAnd | bitOr | bitXor
  | unsupportedOp
deriving Repr, DecidableEq

/-- Modelled from the spec: the signed comparison and arithmetic operations
of the Integer engine (section 4.1), whose implementation file is not among
the analyzed sources. Bounded operations act on two's-complement patterns of
the left operand's width; unbounded operations act on the numeric value.
Unsigned comparisons compare bit patterns in bounded mode and numeric values
in unbounded mode. Division and remainder by zero are fatal (section 7). -/
def intBinOp (op : BinOp) (a b : Integer) : Except IError Integer :=
  let w := match a with | Integer.bounded w _ => w | Integer.unbounded _ => 0
  let wrap : Int → Integer := fun v =>
    match a with
    | Integer.bounded _ _ => Integer.bounded w (toPattern w v)
    | Integer.unbounded _ => Integer.unbounded v
  let pat : Integer → Nat := fun i =>
    match i with | Integer.bounded _ b => b | Integer.unbounded v => toPattern w v
  match op with
  | BinOp.add => Except.ok (wrap (a.ival + b.ival))
  | BinOp.sub => Except.ok (wrap (a.ival - b.ival))
  | BinOp.mul => Except.ok (wrap (a.ival * b.ival))
  | BinOp.sdiv =>
      if b.ival = 0 then Except.error IError.divisionByZero
      else Except.ok (wrap (Int.tdiv a.ival b.ival))
  | BinOp.udiv =>
      if b.ival = 0 then Except.error IError.divisionByZero
      else match a with
        | Integer.bounded _ _ => Except.ok (Integer.bounded w (pat a / pat b))
        | Integer.unbounded _ => Except.ok (wrap (Int.tdiv a.ival b.ival))
  | BinOp.srem =>
      if b.ival = 0 then Except.error IError.divisionByZero
      else Except.ok (wrap (Int.tmod a.ival b.ival))
  | BinOp.urem =>
      if b.ival = 0 then Except.error IError.divisionByZero
      else match a with
        | Integer.bounded _ _ => Except.ok (Integer.bounded w (pat a % pat b))
        | Integer.unbounded _ => Except.ok (wrap (Int.tmod a.ival b.ival))
  | BinOp.shl => Except.ok (wrap (a.ival * (2 ^ (pat b) : Nat)))
  | BinOp.lshr =>
      match a with
      | Integer.bounded _ p => Except.ok (Integer.bounded w (p / 2 ^ (pat b)))
      | Integer.unbounded v => Except.ok (Integer.unbounded (v / (2 ^ (pat b) : Nat)))
  | BinOp.ashr =>
      match a with
      | Integer.bounded _ p =>
          Except.ok (Integer.bounded w (toPattern w (toSigned w p / (2 ^ (pat b) : Nat))))
      | Integer.unbounded v => Except.ok (Integer.unbounded (v / (2 ^ (pat b) : Nat)))
  | BinOp.bitAnd =>
      match a, b with
      | Integer.bounded _ p, q => Except.ok (Integer.bounded w (Nat.land p (pat q)))
      | Integer.unbounded _, _ => Except.ok (Integer.unbounded (Int.ofNat
          (Nat.land (toPattern 64 a.ival) (toPattern 64 b.ival))))
  | BinOp.bitOr =>
      match a, b with
      | Integer.bounded _ p, q => Except.ok (Integer.bounded w (Nat.lor p (pat q)))
      | Integer.unbounded _, _ => Except.ok (Integer.unbounded (Int.ofNat
          (Nat.lor (toPattern 64 a.ival) (toPattern 64 b.ival))))
  | BinOp.bitXor =>
      match a, b with
      | Integer.bounded _ p, q => Except.ok (Integer.bounded w (Nat.xor p (pat q)))
      | Integer.unbounded _, _ => Except.ok (Integer.unbounded (Int.ofNat
          (Nat.xor (toPattern 64 a.ival) (toPattern 64 b.ival))))
  | BinOp.unsupportedOp =>
      -- interpretIntBinOp logs the unsupported opcode and then stores the
      -- default-constructed result anyway (no abort).
      Except.ok (Integer.unbounded 0)

/-- Modelled from the spec: the ten comparison predicates of the Integer
engine (section 4.1). The default case of interpretIntPredicate logs and
leaves the preinitialized false in place. -/
def intPredicate (p : Predicate) (a b : Integer) : Bool :=
  let upat : Integer → Nat := fun i =>
    match i with | Integer.bounded w bits => bits % 2 ^ w | Integer.unbounded v => toPattern 64 v
  let ult : Bool := match a with
    | Integer.bounded _ _ => upat a < upat b
    | Integer.unbounded _ => a.ival < b.ival
  let ule : Bool := match a with
    | Integer.bounded _ _ => upat a ≤ upat b
    | Integer.unbounded _ => a.ival ≤ b.ival
  match p with
  | Predicate.peq => Integer.ieq a b
  | Predicate.pne => !(Integer.ieq a b)
  | Predicate.psge => b.ival ≤ a.ival
  | Predicate.psgt => b.ival < a.ival
  | Predicate.psle => a.ival ≤ b.ival
  | Predicate.pslt => a.ival < b.ival
  | Predicate.puge => !ult
  | Predicate.pugt => !ule
  | Predicate.pule => ule
  | Predicate.pult => ult
  | Predicate.unsupportedPred => false

/-- Non-terminator instructions handled by interpretBlock /
interpretInstruction. The call instruction carries the name of the function
named in the IR (getCalledFunction), which the interpreter never consults.
The otherCast constructor stands for any CastInst outside the handled
zext/sext/ptrtoint/inttoptr cases (for instance trunc or bitcast), on which
the cast branch of interpretInstruction falls through without doing
anything. getelementptr is omitted: its offset computation (resolveGEP)
lives outside the analyzed sources and no claim depends on it. -/
inductive Instr where
  | binOp (id : Nat) (resWidth : Nat) (op : BinOp) (op0 op1 : IRValue)
  | icmp (id : Nat) (pred : Predicate) (op0 op1 : IRValue)
  | boolToInt (id : Nat) (destWidth : Nat) (operand : IRValue)
  | zextInstr (id : Nat) (destWidth : Nat) (operand : IRValue)
  | sextInstr (id : Nat) (destWidth : Nat) (operand : IRValue)
  | ptrToInt (id : Nat) (destWidth : Nat) (operand : IRValue)
  | intToPtr (id : Nat) (operand : IRValue)
  | otherCast (id : Nat) (operand : IRValue)
  | load (id : Nat) (resWidth : Nat) (ptr : IRValue)
  | store (ptr : IRValue) (value : IRValue)
  | select (id : Nat) (cond tval fval : IRValue)
  | call (id : Nat) (calledName : String) (args : List IRValue)
  | unsupportedInstr
deriving Repr, DecidableEq

/-- Terminator instructions (interpretTerminator). unsupportedTerm stands
for any terminator other than return, branch and switch. -/
inductive Terminator where
  | retTerm (val : IRValue)
  | brTerm (dest : String)
  | condBrTerm (cond : IRValue) (tdest fdest : String)
  | switchTerm (cond : IRValue) (cases : List (Nat × Nat × String)) (defaultDest : String)
  | unsupportedTerm
deriving Repr, DecidableEq

/-- Basic block: the PHI nodes at the top (each with its incoming values per
predecessor block name), the remaining non-terminator instructions, and the
terminator. -/
structure Block where
  name : String
  phis : List (Nat × List (String × IRValue))
  instrs : List Instr
  term : Terminator
deriving Repr, DecidableEq

/-- Function: name, argument list (llvm::Argument identities, in order), the
entry block name and the list of blocks. -/
structure Func where
  name : String
  params : List Nat
  entry : String
  blocks : List (String × Block)
deriving Repr, DecidableEq

/-- Lookup of a basic block by name. -/
def lookupBlock (f : Func) (n : String) : Option Block :=
  ((f.blocks).find? (fun p => p.1 = n)).map (fun p => p.2)

/-- Helper for the ubiquitous C++ statement state.variables[key] = value. -/
def bindVar (state : FastState) (k : Option Nat) (v : VarVal) : FastState :=
  { state with vars := setVar state.vars k v }

/-- Function resolveValue: an Instruction or Argument reference is looked up
in the bindings (an absent key is fatal, std::map::at); a constant integer
of bit width 1 resolves to a boolean via isOne; any other width resolves to
an unbounded integer via getSExtValue when BoundedFlag is off, and to a
bounded integer carrying the constant's APInt otherwise; the null-pointer
constant resolves to a 64-bit bounded zero in either mode. -/
def resolveValue (mode : Bool) (v : IRValue) (state : FastState) : Except IError VarVal :=
  match v with
  | IRValue.ref r =>
      match getVar state.vars (some r) with
      | some x => Except.ok x
      | none => Except.error IError.unboundValue
  | IRValue.constInt w bits =>
      if w = 1 then Except.ok (VarVal.bool (bits = 1))
      else if mode then Except.ok (VarVal.int (Integer.bounded w bits))
      else Except.ok (VarVal.int (Integer.unbounded (toSigned w bits)))
  | IRValue.nullPtr => Except.ok (VarVal.int (Integer.bounded 64 0))

/-- Function interpretBoolBinOp: on 1-bit operands only logical Or is
supported; any other opcode is logged (logErrorData) and the preinitialized
false result is stored anyway — the interpretation continues. -/
def interpretBoolBinOp (op : BinOp) (b0 b1 : Bool) : Bool :=
  match op with
  | BinOp.bitOr => b0 || b1
  | _ => false

/-- One iteration chain of the byte loop of the bounded load: reads
remaining byte cells starting at index i, inserting zero-valued 8-bit cells
for absent addresses (std::map::insert keeps resident cells), and folds each
cell into the accumulator pattern by val = (val << 8) | sextOrSelf(cell).
The asserts on the cell's mode and width, and the width agreement required
by APInt::operator|, are modelled as errors. -/
def loadBytes (mode : Bool) (ptr : Integer) (w : Nat) (bytes : Nat) :
    Nat → Nat → Nat → Heap → Except IError (Nat × Heap)
  | 0, _, val, h => Except.ok (val, h)
  | remaining + 1, i, val, h =>
      let key := Integer.add (Integer.asPointer mode ptr)
        (Integer.asPointer mode (Integer.unbounded (Int.ofNat i)))
      let ins := heapInsert h key (Integer.bounded 8 0)
      match ins.2 with
      | Integer.bounded cw c =>
          if cw = 8 then
            if 8 * bytes = w then
              let rhs := if 8 < 8 * bytes then toPattern (8 * bytes) (toSigned 8 c) else c
              loadBytes mode ptr w bytes remaining (i + 1)
                (Nat.lor ((val * 2 ^ 8) % 2 ^ w) rhs) ins.1
            else Except.error IError.widthViolation
          else Except.error IError.typeViolation
      | Integer.unbounded _ => Except.error IError.typeViolation

/-- Descending byte loop of the bounded store (for (; bytes >= 0; --bytes)):
the current low byte (APInt::trunc(8)) is written at address
addr + APInt(64, bytes), then the value is shifted right arithmetically by
8; the loop runs from bytes = width/8 down to and including 0. -/
def storeBytes (addr : Integer) (w : Nat) : Nat → Nat → Heap → Heap
  | bval, 0, h =>
      heapSet h (Integer.add addr (Integer.bounded 64 0)) (Integer.bounded 8 (bval % 2 ^ 8))
  | bval, b + 1, h =>
      storeBytes addr w (Integer.ashr8Pattern w bval) b
        (heapSet h (Integer.add addr (Integer.bounded 64 (b + 1))) (Integer.bounded 8 (bval % 2 ^ 8)))

/-- Function interpretInstruction: dispatch over the non-terminator, non-call
instructions. Notable modelled details, all taken from the source:
  - the 1-bit-to-wide cast reads its operand directly from the bindings
    (state.variables.at) rather than through resolveValue;
  - the inttoptr branch stores its result under the ptrToInt pointer of the
    enclosing dyn_cast chain, which is null in that branch — that is, under
    the ReturnName sentinel (key none) — and leaves the instruction's own
    reference unbound;
  - a bounded load of width w reads w/8 consecutive byte cells from
    asPointer(ptr)+0 upward, zero-filling absent cells;
  - a bounded store of a value of width w writes heap cells at offsets
    w/8 down to 0 (one more cell than w/8 when w/8 > 1), with the value's
    least-significant byte at the highest offset; a one-byte store writes
    the value unchanged at the unadjusted address;
  - an unsupported instruction (including a call instruction reaching this
    function) is logged and the state is returned unchanged. -/
def interpretInstruction (mode : Bool) (instr : Instr) (state : FastState) :
    Except IError FastState :=
  match instr with
  | Instr.binOp id w op v0 v1 => do
      let op0 ← resolveValue mode v0 state
      let op1 ← resolveValue mode v1 state
      if w = 1 then
        match op0, op1 with
        | VarVal.bool b0, VarVal.bool b1 =>
            Except.ok (bindVar state (some id) (VarVal.bool (interpretBoolBinOp op b0 b1)))
        | _, _ => Except.error IError.typeViolation
      else
        match op0, op1 with
        | VarVal.int i0, VarVal.int i1 => do
            let r ← intBinOp op i0 i1
            Except.ok (bindVar state (some id) (VarVal.int r))
        | _, _ => Except.error IError.typeViolation
  | Instr.icmp id pred v0 v1 => do
      let op0 ← resolveValue mode v0 state
      let op1 ← resolveValue mode v1 state
      match op0, op1 with
      | VarVal.int i0, VarVal.int i1 =>
          Except.ok (bindVar state (some id) (VarVal.bool (intPredicate pred i0 i1)))
      | _, _ => Except.error IError.typeViolation
  | Instr.boolToInt id destW v => do
      let operand ←
        match v with
        | IRValue.ref r =>
            match getVar state.vars (some r) with
            | some x => Except.ok x
            | none => Except.error IError.unboundValue
        | _ => Except.error IError.unboundValue
      match operand with
      | VarVal.bool b =>
          let one : Integer :=
            if mode then Integer.bounded destW (if b then 1 else 0)
            else Integer.unbounded (if b then 1 else 0)
          Except.ok (bindVar state (some id) (VarVal.int one))
      | VarVal.int _ => Except.error IError.typeViolation
  | Instr.zextInstr id destW v => do
      let rv ← resolveValue mode v state
      let i ← rv.intVal
      match Integer.zext destW i with
      | some r => Except.ok (bindVar state (some id) (VarVal.int r))
      | none => Except.error IError.widthViolation
  | Instr.sextInstr id destW v => do
      let rv ← resolveValue mode v state
      let i ← rv.intVal
      match Integer.sext destW i with
      | some r => Except.ok (bindVar state (some id) (VarVal.int r))
      | none => Except.error IError.widthViolation
  | Instr.ptrToInt id destW v => do
      let rv ← resolveValue mode v state
      let i ← rv.intVal
      Except.ok (bindVar state (some id) (VarVal.int (Integer.zextOrTrunc destW i)))
  | Instr.intToPtr _ v => do
      let rv ← resolveValue mode v state
      let i ← rv.intVal
      -- state.variables[ptrToInt] with ptrToInt null: the ReturnName sentinel.
      Except.ok (bindVar state none (VarVal.int (Integer.zextOrTrunc 64 i)))
  | Instr.otherCast _ _ => Except.ok state
  | Instr.load id w v => do
      let ptr ← resolveValue mode v state
      match ptr with
      | VarVal.int pv =>
          if mode then do
            let bytes := w / 8
            let (val, h1) ← loadBytes mode pv w bytes bytes 0 0 state.heap
            Except.ok (bindVar { state with heap := h1 } (some id) (VarVal.int (Integer.bounded w val)))
          else
            match heapInsert state.heap (Integer.asPointer mode pv) (Integer.unbounded 0) with
            | (h1, cell) =>
                Except.ok (bindVar { state with heap := h1 } (some id) (VarVal.int cell))
      | VarVal.bool _ => Except.error IError.typeViolation
  | Instr.store pv vv => do
      let ptr ← resolveValue mode pv state
      match ptr with
      | VarVal.int addr => do
          let rv ← resolveValue mode vv state
          let val ← rv.intVal
          if mode then
            match val with
            | Integer.bounded vw vb =>
                let bytes := vw / 8
                if bytes = 1 then
                  Except.ok { state with heap := heapSet state.heap addr val }
                else
                  Except.ok { state with heap := storeBytes addr vw vb bytes state.heap }
            | Integer.unbounded _ => Except.error IError.typeViolation
          else
            Except.ok { state with heap := heapSet state.heap addr val }
      | VarVal.bool _ => Except.error IError.typeViolation
  | Instr.select id cv tv fv => do
      let cond ← resolveValue mode cv state
      match cond with
      | VarVal.bool b => do
          let var ← if b then resolveValue mode tv state else resolveValue mode fv state
          Except.ok (bindVar state (some id) var)
      | VarVal.int _ => Except.error IError.typeViolation
  | Instr.call _ _ _ => Except.ok state
  | Instr.unsupportedInstr => Except.ok state

/-- Function interpretPHI: picks the incoming value for the previous block
(PHINode::getIncomingValueForBlock), resolves it and binds the PHI's own
reference; interpreting a PHI without a matching predecessor entry (or with
no previous block at all) is undefined behaviour in the C++ code, modelled
as an error. -/
def interpretPHI (mode : Bool) (phi : Nat × List (String × IRValue))
    (prev : Option String) (state : FastState) : Except IError FastState :=
  match prev with
  | none => Except.error IError.unboundValue
  | some p =>
      match (phi.2.find? (fun q => q.1 = p)).map (fun q => q.2) with
      | none => Except.error IError.unboundValue
      | some v => do
          let var ← resolveValue mode v state
          Except.ok (bindVar state (some phi.1) var)

/-- PHI loop at the top of interpretBlock: every PHI is resolved in order,
mutating the bindings in place, before the step snapshot is taken. -/
def interpretPHIs (mode : Bool) (phis : List (Nat × List (String × IRValue)))
    (prev : Option String) (state : FastState) : Except IError FastState :=
  match phis with
  | [] => Except.ok state
  | phi :: rest => do
      let state1 ← interpretPHI mode phi prev state
      interpretPHIs mode rest prev state1

/-- Function interpretTerminator: return binds the ReturnName sentinel and
yields no next block; branches pick a successor; switch compares the
scrutinee against the case constants in declaration order (decoded as a
bounded APInt in bounded mode and as an unbounded getSExtValue otherwise),
falling through to the default destination; any other terminator is logged
(only return and branches are supported) and yields no next block, exactly
like a return. -/
def interpretTerminator (mode : Bool) (t : Terminator) (state : FastState) :
    Except IError (Option String × FastState) :=
  match t with
  | Terminator.retTerm v => do
      let rv ← resolveValue mode v state
      Except.ok (none, bindVar state none rv)
  | Terminator.brTerm d => Except.ok (some d, state)
  | Terminator.condBrTerm cv td fd => do
      let cond ← resolveValue mode cv state
      match cond with
      | VarVal.bool b => Except.ok (some (if b then td else fd), state)
      | VarVal.int _ => Except.error IError.typeViolation
  | Terminator.switchTerm cv cases dd => do
      let cond ← resolveValue mode cv state
      match cond with
      | VarVal.int condVal =>
          let rec findCase : List (Nat × Nat × String) → Option String
            | [] => none
            | (w, bits, dest) :: rest =>
                let caseVal : Integer :=
                  if mode then Integer.bounded w bits
                  else Integer.unbounded (toSigned w bits)
                if Integer.ieq caseVal condVal then some dest else findCase rest
          match findCase cases with
          | some dest => Except.ok (some dest, state)
          | none => Except.ok (some dd, state)
      | VarVal.bool _ => Except.error IError.typeViolation
  | Terminator.unsupportedTerm => Except.ok (none, state)

mutual
/-- Call record (template Call / FastCall): the unit of trace exchange. -/
inductive FastCall where
  | mk (functionName : String) (entryState : FastState) (returnState : FastState)
       (steps : List BlockStep) (earlyExit : Bool) (blocksVisited : Nat)

/-- Block step (template BlockStep): block name, the post-PHI snapshot, and
the call records of the calls performed inside the block. -/
inductive BlockStep where
  | mk (blockName : String) (state : FastState) (calls : List FastCall)
end

/-- Projection functionName of FastCall. -/
def FastCall.functionName : FastCall → String
  | mk n _ _ _ _ _ => n

/-- Projection entryState of FastCall. -/
def FastCall.entryState : FastCall → FastState
  | mk _ e _ _ _ _ => e

/-- Projection returnState of FastCall. -/
def FastCall.returnState : FastCall → FastState
  | mk _ _ r _ _ _ => r

/-- Projection steps of FastCall. -/
def FastCall.steps : FastCall → List BlockStep
  | mk _ _ _ s _ _ => s

/-- Projection earlyExit of FastCall. -/
def FastCall.earlyExit : FastCall → Bool
  | mk _ _ _ _ e _ => e

/-- Projection blocksVisited of FastCall. -/
def FastCall.blocksVisited : FastCall → Nat
  | mk _ _ _ _ _ b => b

/-- Projection blockName of BlockStep. -/
def BlockStep.blockName : BlockStep → String
  | mk n _ _ => n

/-- Projection state of BlockStep. -/
def BlockStep.state : BlockStep → FastState
  | mk _ s _ => s

/-- Projection calls of BlockStep. -/
def BlockStep.calls : BlockStep → List FastCall
  | mk _ _ c => c

/-- Result of interpretBlock (template BlockUpdate): the post-PHI snapshot,
the next block (none on return), the nested call records, the early-exit
flag and the number of blocks visited while interpreting the block. -/
structure BlockUpdate where
  step : FastState
  nextBlock : Option String
  calls : List FastCall
  earlyExit : Bool
  blocksVisited : Nat

mutual
/-- Function interpretFunction: starts at the entry block with no previous
block and a blocksVisited count of 0 and iterates interpretBlock through the
do-while loop (modelled by interpretLoop). The extra Nat parameter is fuel
for the recursion of the model; on exhaustion the run reports outOfFuel. -/
def interpretFunction (mode : Bool) (f : Func) (entry : FastState)
    (maxSteps : Nat) (fuel : Nat) : Except IError FastCall :=
  match fuel with
  | 0 => Except.error IError.outOfFuel
  | n + 1 =>
      match lookupBlock f f.entry with
      | none => Except.error IError.unboundValue
      | some blk => interpretLoop mode f entry none blk entry [] 0 maxSteps n
termination_by structural fuel

/-- Loop body of interpretFunction: interpret the current block with budget
maxSteps - blocksVisited (uint32 subtraction), accumulate blocksVisited,
push the block step, and return early (earlyExit = true) as soon as the
accumulated count exceeds maxSteps or the block signalled early exit;
otherwise follow the next block, or finish with earlyExit = false when the
block returned. -/
def interpretLoop (mode : Bool) (f : Func) (entry : FastState)
    (prev : Option String) (cur : Block) (state : FastState)
    (steps : List BlockStep) (bv : Nat) (maxSteps : Nat) (fuel : Nat) :
    Except IError FastCall :=
  match fuel with
  | 0 => Except.error IError.outOfFuel
  | n + 1 => do
      let r ← interpretBlockF mode f cur prev state (u32sub maxSteps bv) n
      let upd := r.1
      let state1 := r.2
      let bv1 := u32add bv upd.blocksVisited
      let steps1 := steps ++ [BlockStep.mk cur.name upd.step upd.calls]
      if bv1 > maxSteps || upd.earlyExit then
        Except.ok (FastCall.mk f.name entry state1 steps1 true bv1)
      else
        match upd.nextBlock with
        | none => Except.ok (FastCall.mk f.name entry state1 steps1 false bv1)
        | some nb =>
            match lookupBlock f nb with
            | none => Except.error IError.unboundValue
            | some blk2 =>
                interpretLoop mode f entry (some cur.name) blk2 state1 steps1 bv1 maxSteps n
termination_by structural fuel

/-- Function interpretBlock: resolve the PHIs using the previous block, take
the step snapshot of the post-PHI state, then process the remaining
instructions and the terminator (instrGo). -/
def interpretBlockF (mode : Bool) (f : Func) (blk : Block)
    (prev : Option String) (state : FastState) (maxSteps : Nat) (fuel : Nat) :
    Except IError (BlockUpdate × FastState) :=
  match fuel with
  | 0 => Except.error IError.outOfFuel
  | n + 1 => do
      let state1 ← interpretPHIs mode blk.phis prev state
      instrGo mode f blk.term blk.instrs state1 state1 1 maxSteps [] n
termination_by structural fuel

/-- Instruction loop of interpretBlock. A call instruction binds the call's
argument operands positionally to the parameters of the function returned by
CallInst::getFunction — which is the function containing the instruction,
that is, the enclosing function f itself, not the called function — into a
fresh variable map sharing the current heap, interprets that function
recursively with budget maxSteps - blocksVisited, and on normal completion
folds the callee heap back, binds the call's own reference to the callee's
ReturnName binding and appends the call record; if the accumulated count
exceeds the budget or the callee exited early, the block returns immediately
with earlyExit = true, skipping the remaining instructions and the
terminator. Every other instruction goes through interpretInstruction. The
C++ code binds a null shared_ptr when the callee finished without a
ReturnName binding (operator[] on an absent key) and crashes when it is
first used; this is modelled as an immediate error. -/
def instrGo (mode : Bool) (f : Func) (term : Terminator) (instrs : List Instr)
    (step : FastState) (state : FastState) (bv : Nat) (maxSteps : Nat)
    (calls : List FastCall) (fuel : Nat) : Except IError (BlockUpdate × FastState) :=
  match fuel with
  | 0 => Except.error IError.outOfFuel
  | n + 1 =>
      match instrs with
      | [] => do
          let r ← interpretTerminator mode term state
          Except.ok (BlockUpdate.mk step r.1 calls false bv, r.2)
      | Instr.call id _ args :: rest => do
          let argVals ← args.mapM (fun a => resolveValue mode a state)
          let argMap : FastVarMap := (f.params.zip argVals).map (fun p => (some p.1, p.2))
          let c ← interpretFunction mode f ⟨argMap, state.heap⟩ (u32sub maxSteps bv) n
          let bv1 := u32add bv c.blocksVisited
          if bv1 > maxSteps || c.earlyExit then
            Except.ok (BlockUpdate.mk step none calls true bv1, state)
          else
            match getVar c.returnState.vars none with
            | none => Except.error IError.unboundValue
            | some rv =>
                instrGo mode f term rest step
                  ⟨setVar state.vars (some id) rv, c.returnState.heap⟩
                  bv1 maxSteps (calls ++ [c]) n
      | i :: rest => do
          let state1 ← interpretInstruction mode i state
          instrGo mode f term rest step state1 bv maxSteps calls n
termination_by structural fuel
end

mutual
/-- Reference interpretation without a step budget, following the spec's
notion of the number of basic-block visits the full call tree requires
(section 8): structurally identical to interpretFunction except that no
budget is checked, no early exit ever happens, and blocksVisited is
accumulated as an unbounded natural number. Used to state the claims about
the budget discipline. -/
def freeFunction (mode : Bool) (f : Func) (entry : FastState) (fuel : Nat) :
    Except IError FastCall :=
  match fuel with
  | 0 => Except.error IError.outOfFuel
  | n + 1 =>
      match lookupBlock f f.entry with
      | none => Except.error IError.unboundValue
      | some blk => freeLoop mode f entry none blk entry [] 0 n
termination_by structural fuel

/-- Loop of the reference interpretation (see freeFunction). -/
def freeLoop (mode : Bool) (f : Func) (entry : FastState)
    (prev : Option String) (cur : Block) (state : FastState)
    (steps : List BlockStep) (bv : Nat) (fuel : Nat) : Except IError FastCall :=
  match fuel with
  | 0 => Except.error IError.outOfFuel
  | n + 1 => do
      let r ← freeBlockF mode f cur prev state n
      let upd := r.1
      let state1 := r.2
      let bv1 := bv + upd.blocksVisited
      let steps1 := steps ++ [BlockStep.mk cur.name upd.step upd.calls]
      match upd.nextBlock with
      | none => Except.ok (FastCall.mk f.name entry state1 steps1 false bv1)
      | some nb =>
          match lookupBlock f nb with
          | none => Except.error IError.unboundValue
          | some blk2 => freeLoop mode f entry (some cur.name) blk2 state1 steps1 bv1 n
termination_by structural fuel

/-- Block interpretation of the reference interpretation (see freeFunction). -/
def freeBlockF (mode : Bool) (f : Func) (blk : Block) (prev : Option String)
    (state : FastState) (fuel : Nat) : Except IError (BlockUpdate × FastState) :=
  match fuel with
  | 0 => Except.error IError.outOfFuel
  | n + 1 => do
      let state1 ← interpretPHIs mode blk.phis prev state
      freeInstrGo mode f blk.term blk.instrs state1 state1 1 [] n
termination_by structural fuel

/-- Instruction loop of the reference interpretation (see freeFunction). -/
def freeInstrGo (mode : Bool) (f : Func) (term : Terminator) (instrs : List Instr)
    (step : FastState) (state : FastState) (bv : Nat)
    (calls : List FastCall) (fuel : Nat) : Except IError (BlockUpdate × FastState) :=
  match fuel with
  | 0 => Except.error IError.outOfFuel
  | n + 1 =>
      match instrs with
      | [] => do
          let r ← interpretTerminator mode term state
          Except.ok (BlockUpdate.mk step r.1 calls false bv, r.2)
      | Instr.call id _ args :: rest => do
          let argVals ← args.mapM (fun a => resolveValue mode a state)
          let argMap : FastVarMap := (f.params.zip argVals).map (fun p => (some p.1, p.2))
          let c ← freeFunction mode f ⟨argMap, state.heap⟩ n
          let bv1 := bv + c.blocksVisited
          match getVar c.returnState.vars none with
          | none => Except.error IError.unboundValue
          | some rv =>
              freeInstrGo mode f term rest step
                ⟨setVar state.vars (some id) rv, c.returnState.heap⟩
                bv1 (calls ++ [c]) n
      | i :: rest => do
          let state1 ← interpretInstruction mode i state
          freeInstrGo mode f term rest step state1 bv calls n
termination_by structural fuel
end

/-- Weight of one recorded block step: 1 plus the blocksVisited of the
nested call records (used by the blocksVisited bookkeeping claims). -/
def stepWeight (s : BlockStep) : Nat :=
  1 + (s.calls.map FastCall.blocksVisited).sum

/-- Sum of the step weights of a call record. -/
def callWeight (c : FastCall) : Nat :=
  (c.steps.map stepWeight).sum

/-- Input state of the concrete store/load scenario of claim C3. -/
def stEmpty : FastState := { vars := [], heap := [] }

/-- Input state of the concrete inttoptr scenario of claim C8: the operand
reference 2 holds the bounded 32-bit value 5 and the return sentinel holds
the value 7. -/
def stC8 : FastState :=
  { vars := [(some 2, VarVal.int (Integer.bounded 32 5)),
             (none, VarVal.int (Integer.unbounded 7))], heap := [] }

/-- Input state of the unsupported-boolean-binop scenario of claim C5. -/
def stC5 : FastState :=
  { vars := [(some 1, VarVal.bool true), (some 2, VarVal.bool true)], heap := [] }

/-- Concrete program of claim C1: function f (one parameter, reference 0)
whose entry block branches on the parameter either to block A, which returns
the constant 0, or to block B, which calls the function named g with the
constant false and returns the call's result. -/
def fC1 : Func :=
  { name := "f", params := [0], entry := "ent",
    blocks :=
      [("ent", { name := "ent", phis := [], instrs := [],
                 term := Terminator.condBrTerm (IRValue.ref 0) "B" "A" }),
       ("A", { name := "A", phis := [], instrs := [],
               term := Terminator.retTerm (IRValue.constInt 32 0) }),
       ("B", { name := "B", phis := [],
               instrs := [Instr.call 1 "g" [IRValue.constInt 1 0]],
               term := Terminator.retTerm (IRValue.ref 1) })] }

/-- Entry state of the claim C1 scenario: the parameter is bound to true. -/
def eC1 : FastState := { vars := [(some 0, VarVal.bool true)], heap := [] }

/-- Block of the C6 witness: the PHI binds reference 1 to 5 (selected
through the previous block p); the later add instruction overwrites
reference 1 with 10; the snapshot keeps the pre-mutation value 5. -/
def blkC6 : Block :=
  { name := "blk",
    phis := [(1, [("p", IRValue.constInt 32 5)])],
    instrs := [Instr.binOp 1 32 BinOp.add (IRValue.ref 1) (IRValue.ref 1)],
    term := Terminator.retTerm (IRValue.ref 1) }

/-- Result of interpreting the C6 witness block: the snapshot holds 5, the
final state holds 10 and binds the return sentinel. -/
def outC6 : BlockUpdate × FastState :=
  (BlockUpdate.mk { vars := [(some 1, VarVal.int (Integer.unbounded 5))], heap := [] }
     none [] false 1,
   { vars := [(some 1, VarVal.int (Integer.unbounded 10)),
              (none, VarVal.int (Integer.unbounded 10))], heap := [] })

/-- Address of the i-th byte cell of a load: asPointer(ptr) + asPointer(i). -/
def keyAt (mode : Bool) (ptr : Integer) (i : Nat) : Integer :=
  Integer.add (Integer.asPointer mode ptr)
    (Integer.asPointer mode (Integer.unbounded (Int.ofNat i)))

/-- Presence of a call instruction in an instruction list. -/
def callIn (instrs : List Instr) : Prop :=
  ∃ id cn args, Instr.call id cn args ∈ instrs

/-- Concrete one-block function (returns the constant 5) used as witness
input for the budget bookkeeping claims. -/
def fOne : Func :=
  { name := "one", params := [], entry := "e0",
    blocks := [("e0", { name := "e0", phis := [], instrs := [],
                        term := Terminator.retTerm (IRValue.constInt 32 5) })] }

/-- Call record produced by interpreting fOne with budget 5. -/
def cOne5 : FastCall :=
  FastCall.mk "one" stEmpty
    { vars := [(none, VarVal.int (Integer.unbounded 5))], heap := [] }
    [BlockStep.mk "e0" stEmpty []] false 1

/-- Call record produced by interpreting fOne with budget 0. -/
def cOne0 : FastCall :=
  FastCall.mk "one" stEmpty
    { vars := [(none, VarVal.int (Integer.unbounded 5))], heap := [] }
    [BlockStep.mk "e0" stEmpty []] true 1

/-- CBOR items as used by the trace codec (libcbor): booleans, definite and
indefinite strings, unsigned integers, definite arrays and definite maps. -/
inductive CBOR where
  | boolItem (b : Bool)
  | stringItem (s : String)
  | stringIndefItem (parts : List String)
  | uintItem (n : Nat)
  | arrayItem (items : List CBOR)
  | mapItem (pairs : List (CBOR × CBOR))

/-- Decimal digits of a natural number, most significant first, empty for 0. -/
def natDecChars (n : Nat) : List Char :=
  ((Nat.digits 10 n).map Nat.digitChar).reverse

/-- Decimal rendering of a natural number (GMP get_str convention). -/
def natDecString (n : Nat) : String :=
  if n = 0 then "0" else String.mk (natDecChars n)

/-- Value of a decimal digit character. -/
def decDigit? (c : Char) : Option Nat :=
  if c.isDigit then some (c.toNat - 48) else none

/-- Accumulating decimal parse, most significant digit first. -/
def parseNatGo : Nat → List Char → Option Nat
  | acc, [] => some acc
  | acc, c :: cs =>
      match decDigit? c with
      | some d => parseNatGo (acc * 10 + d) cs
      | none => none

/-- Parse of a non-empty decimal digit string. -/
def parseNatChars : List Char → Option Nat
  | [] => none
  | cs => parseNatGo 0 cs

/-- Modelled from the spec: parsing of sign-magnitude decimal text into an
arbitrary-precision integer, the mpz_class(string, 10) constructor; an
invalid string is a fatal condition (the constructor throws). -/
def parseDec (s : String) : Option Int :=
  match s.data with
  | [] => none
  | c :: cs =>
      if c = '-' then (parseNatChars cs).map (fun n => -(n : Int))
      else (parseNatChars (c :: cs)).map (fun n => (n : Int))

/-- Modelled from the spec: decimal rendering (get_str), sign-magnitude
decimal text of the numeric value regardless of mode (section 6). -/
def Integer.get_str (i : Integer) : String :=
  let v := Integer.ival i
  if v < 0 then "-" ++ natDecString v.natAbs else natDecString v.natAbs

/-- Name of a binding key in the portable state (valueName): the null
sentinel is named return, any other reference carries its IR name, given by
the naming function nm (Value::getName in the source). -/
def valueName (nm : Nat → String) : Option Nat → String
  | none => "return"
  | some r => nm r

/-- Encoding of a typed value (VarInt::toCBOR builds a definite string from
get_str, VarBool::toCBOR builds a boolean). -/
def varValToCBOR : VarVal → CBOR
  | VarVal.int i => CBOR.stringItem (Integer.get_str i)
  | VarVal.bool b => CBOR.boolItem b

/-- Function stateToCBOR: a two-entry map, variables first (name-keyed
typed values) and heap second (decimal-text address to decimal-text value,
regardless of mode). -/
def stateToCBOR (nm : Nat → String) (s : FastState) : CBOR :=
  CBOR.mapItem
    [(CBOR.stringItem "variables",
      CBOR.mapItem (s.vars.map (fun p =>
        (CBOR.stringItem (valueName nm p.1), varValToCBOR p.2)))),
     (CBOR.stringItem "heap",
      CBOR.mapItem (s.heap.map (fun p =>
        (CBOR.stringItem (Integer.get_str p.1), CBOR.stringItem (Integer.get_str p.2)))))]

mutual
/-- Method FastCall::toCBOR: a six-entry map in the order function_name,
entry_state, return_state, steps, early_exit, blocks_visited. -/
def callToCBOR (nm : Nat → String) : FastCall → CBOR
  | FastCall.mk fn es rs steps ee bv =>
      CBOR.mapItem
        [(CBOR.stringItem "function_name", CBOR.stringItem fn),
         (CBOR.stringItem "entry_state", stateToCBOR nm es),
         (CBOR.stringItem "return_state", stateToCBOR nm rs),
         (CBOR.stringItem "steps", CBOR.arrayItem (stepListToCBOR nm steps)),
         (CBOR.stringItem "early_exit", CBOR.boolItem ee),
         (CBOR.stringItem "blocks_visited", CBOR.uintItem bv)]

/-- Method BlockStep::toCBOR: a three-entry map block_name, state, calls. -/
def stepToCBOR (nm : Nat → String) : BlockStep → CBOR
  | BlockStep.mk bn st calls =>
      CBOR.mapItem
        [(CBOR.stringItem "block_name", CBOR.stringItem bn),
         (CBOR.stringItem "state", stateToCBOR nm st),
         (CBOR.stringItem "calls", CBOR.arrayItem (callListToCBOR nm calls))]

/-- Encoding of a list of block steps (the steps array). -/
def stepListToCBOR (nm : Nat → String) : List BlockStep → List CBOR
  | [] => []
  | s :: rest => stepToCBOR nm s :: stepListToCBOR nm rest

/-- Encoding of a list of call records (the calls array). -/
def callListToCBOR (nm : Nat → String) : List FastCall → List CBOR
  | [] => []
  | c :: rest => callToCBOR nm c :: callListToCBOR nm rest
end

/-- Decoded portable state (State of string): name-keyed typed values and
an Integer-keyed heap. -/
structure StateS where
  vars : List (String × VarVal)
  heap : Heap

mutual
/-- Decoded call record (Call of string). -/
inductive CallS where
  | mk (functionName : String) (entryState returnState : StateS)
       (steps : List BlockStepS) (earlyExit : Bool) (blocksVisited : Nat)

/-- Decoded block step (BlockStep of string). -/
inductive BlockStepS where
  | mk (blockName : String) (state : StateS) (calls : List CallS)
end

/-- Function cborToString: requires a definite string. -/
def cborToString : CBOR → Except IError String
  | CBOR.stringItem s => Except.ok s
  | _ => Except.error IError.malformedWire

/-- Function cborToVarVal: a boolean item becomes a VarBool, a definite
string becomes a VarInt holding the base-10 arbitrary-precision parse of
the text (always unbounded, independent of the mode flag, which this
function never reads), and every other item yields the null pointer,
modelled as none. A string that is not valid decimal makes the mpz
constructor throw, modelled as an error. -/
def cborToVarVal : CBOR → Except IError (Option VarVal)
  | CBOR.boolItem b => Except.ok (some (VarVal.bool b))
  | CBOR.stringItem s =>
      match parseDec s with
      | some i => Except.ok (some (VarVal.int (Integer.unbounded i)))
      | none => Except.error IError.malformedWire
  | _ => Except.ok none

/-- Function cborToVarIntVal: base-10 arbitrary-precision parse of a
definite string (always an unbounded integer). -/
def cborToVarIntVal (item : CBOR) : Except IError Integer := do
  let s ← cborToString item
  match parseDec s with
  | some i => Except.ok (Integer.unbounded i)
  | none => Except.error IError.malformedWire

/-- Insertion into a string-keyed map (std::map::insert keeps the resident
entry on a duplicate key). -/
def insertIfAbsent {α : Type} (l : List (String × α)) (k : String) (v : α) :
    List (String × α) :=
  if (l.find? (fun p => p.1 = k)).isSome then l else l ++ [(k, v)]

/-- Lookup in a string-keyed map (std::map::at; an absent key throws). -/
def lookupKey (l : List (String × CBOR)) (k : String) : Except IError CBOR :=
  match l.find? (fun p => p.1 = k) with
  | some p => Except.ok p.2
  | none => Except.error IError.malformedWire

/-- Function cborToKeyMap (via cborToMap): keys decoded as definite
strings, values kept as raw items, inserted in order with first-wins
semantics. -/
def cborToKeyMapGo : List (CBOR × CBOR) → List (String × CBOR) →
    Except IError (List (String × CBOR))
  | [], acc => Except.ok acc
  | (k, v) :: rest, acc => do
      let ks ← cborToString k
      cborToKeyMapGo rest (insertIfAbsent acc ks v)

/-- Function cborToStringMap with cborToVarVal as the value decoder: builds
the variables map of a portable state. A value item cborToVarVal cannot
decode makes the C++ code store a null shared_ptr that crashes on first
use, modelled as an immediate error. -/
def cborToVarMapGo : List (CBOR × CBOR) → List (String × VarVal) →
    Except IError (List (String × VarVal))
  | [], acc => Except.ok acc
  | (k, v) :: rest, acc => do
      let ks ← cborToString k
      let vv ← cborToVarVal v
      match vv with
      | some x => cborToVarMapGo rest (insertIfAbsent acc ks x)
      | none => Except.error IError.malformedWire

/-- Insertion into the Integer-keyed heap map with first-wins semantics. -/
def insertIfAbsentH (l : Heap) (k v : Integer) : Heap :=
  if (heapGet l k).isSome then l else l ++ [(k, v)]

/-- Heap decoding of cborToState: every address and every value is the
base-10 arbitrary-precision parse of a decimal string (always unbounded,
whatever the mode). -/
def cborToHeapGo : List (CBOR × CBOR) → Heap → Except IError Heap
  | [], acc => Except.ok acc
  | (k, v) :: rest, acc => do
      let ks ← cborToString k
      match parseDec ks with
      | none => Except.error IError.malformedWire
      | some a => do
          let vi ← cborToVarIntVal v
          cborToHeapGo rest (insertIfAbsentH acc (Integer.unbounded a) vi)

/-- Function cborToState: asserts a two-entry map and reads the first entry
as the variables map and the second as the heap map, positionally, ignoring
the keys; all integers are decoded as unbounded values and the mode flag is
never consulted. -/
def cborToState : CBOR → Except IError StateS
  | CBOR.mapItem [(_, vv), (_, hv)] =>
      (match vv with
      | CBOR.mapItem vpairs => do
          let vars ← cborToVarMapGo vpairs []
          match hv with
          | CBOR.mapItem hpairs => do
              let heap ← cborToHeapGo hpairs []
              Except.ok ⟨vars, heap⟩
          | _ => Except.error IError.malformedWire
      | _ => Except.error IError.malformedWire)
  | _ => Except.error IError.malformedWire

/-- Reading of the early_exit entry (cbor_ctrl_is_bool on a non-boolean is
undefined, modelled as an error). -/
def cborGetBool : CBOR → Except IError Bool
  | CBOR.boolItem b => Except.ok b
  | _ => Except.error IError.malformedWire

/-- Reading of the blocks_visited entry (cbor_get_uint32). -/
def cborGetUint32 : CBOR → Except IError Nat
  | CBOR.uintItem n => Except.ok n
  | _ => Except.error IError.malformedWire

mutual
/-- Function cborToCall: asserts a six-entry map, builds the key map and
decodes the six named entries. The extra Nat argument is fuel for the
mutual recursion through steps and nested calls. -/
def cborToCall (item : CBOR) : Nat → Except IError CallS
  | 0 => Except.error IError.outOfFuel
  | n + 1 =>
      match item with
      | CBOR.mapItem pairs =>
          if pairs.length = 6 then do
            let vals ← cborToKeyMapGo pairs []
            let fn ← lookupKey vals "function_name" >>= cborToString
            let entry ← lookupKey vals "entry_state" >>= cborToState
            let ret ← lookupKey vals "return_state" >>= cborToState
            let stepsItem ← lookupKey vals "steps"
            match stepsItem with
            | CBOR.arrayItem items => do
                let steps ← cborToStepList n items
                let ee ← lookupKey vals "early_exit" >>= cborGetBool
                let bv ← lookupKey vals "blocks_visited" >>= cborGetUint32
                Except.ok (CallS.mk fn entry ret steps ee bv)
            | _ => Except.error IError.malformedWire
          else Except.error IError.malformedWire
      | _ => Except.error IError.malformedWire
termination_by fuel => (fuel, 0)

/-- Function cborToBlockStep: asserts a three-entry map and decodes
block_name, state and calls. -/
def cborToBlockStep (item : CBOR) : Nat → Except IError BlockStepS
  | 0 => Except.error IError.outOfFuel
  | n + 1 =>
      match item with
      | CBOR.mapItem pairs =>
          if pairs.length = 3 then do
            let vals ← cborToKeyMapGo pairs []
            let bn ← lookupKey vals "block_name" >>= cborToString
            let st ← lookupKey vals "state" >>= cborToState
            let callsItem ← lookupKey vals "calls"
            match callsItem with
            | CBOR.arrayItem items => do
                let calls ← cborToCallList n items
                Except.ok (BlockStepS.mk bn st calls)
            | _ => Except.error IError.malformedWire
          else Except.error IError.malformedWire
      | _ => Except.error IError.malformedWire
termination_by fuel => (fuel, 0)

/-- Decoding of a steps array (cborToVector with cborToBlockStep). -/
def cborToStepList (n : Nat) : List CBOR → Except IError (List BlockStepS)
  | [] => Except.ok []
  | it :: rest => do
      let s ← cborToBlockStep it n
      let ss ← cborToStepList n rest
      Except.ok (s :: ss)
termination_by items => (n, items.length + 1)

/-- Decoding of a calls array (cborToVector with cborToCall). -/
def cborToCallList (n : Nat) : List CBOR → Except IError (List CallS)
  | [] => Except.ok []
  | it :: rest => do
      let c ← cborToCall it n
      let cs ← cborToCallList n rest
      Except.ok (c :: cs)
termination_by items => (n, items.length + 1)
end

/-- Function varValEq: type tag first, then payload (boolean equality or
Integer operator==). -/
def varValEq (l r : VarVal) : Bool :=
  match l, r with
  | VarVal.bool a, VarVal.bool b => a == b
  | VarVal.int a, VarVal.int b => Integer.ieq a b
  | _, _ => false

/-- Wire-level normalization of a typed value: decoding its encoding yields
an unbounded integer carrying the same numeric value (booleans unchanged). -/
def normVal : VarVal → VarVal
  | VarVal.int i => VarVal.int (Integer.unbounded i.ival)
  | VarVal.bool b => VarVal.bool b

/-- Decoded image of an interpreter state: names replace keys, integer
payloads become unbounded values of the same magnitude. -/
def renameState (nm : Nat → String) (s : FastState) : StateS :=
  ⟨s.vars.map (fun p => (valueName nm p.1, normVal p.2)),
   s.heap.map (fun p => (Integer.unbounded p.1.ival, Integer.unbounded p.2.ival))⟩

mutual
/-- Decoded image of a call record. -/
def renameCall (nm : Nat → String) : FastCall → CallS
  | FastCall.mk fn es rs steps ee bv =>
      CallS.mk fn (renameState nm es) (renameState nm rs) (renameSteps nm steps) ee bv

/-- Decoded image of a block step. -/
def renameStep (nm : Nat → String) : BlockStep → BlockStepS
  | BlockStep.mk bn st calls =>
      BlockStepS.mk bn (renameState nm st) (renameCalls nm calls)

/-- Decoded image of a list of block steps. -/
def renameSteps (nm : Nat → String) : List BlockStep → List BlockStepS
  | [] => []
  | s :: rest => renameStep nm s :: renameSteps nm rest

/-- Decoded image of a list of call records. -/
def renameCalls (nm : Nat → String) : List FastCall → List CallS
  | [] => []
  | c :: rest => renameCall nm c :: renameCalls nm rest
end

/-- Well-named state: the variable names are pairwise distinct and the heap
addresses are pairwise distinct by numeric value (both hold for states that
come from std::map instances with injective naming). -/
def goodState (nm : Nat → String) (s : FastState) : Prop :=
  (s.vars.map (fun p => valueName nm p.1)).Nodup ∧
  (s.heap.map (fun p => p.1.ival)).Nodup

mutual
/-- Well-named call record (see goodState). -/
def goodCall (nm : Nat → String) : FastCall → Prop
  | FastCall.mk _ es rs steps _ _ =>
      goodState nm es ∧ goodState nm rs ∧ goodSteps nm steps

/-- Well-named block step. -/
def goodStep (nm : Nat → String) : BlockStep → Prop
  | BlockStep.mk _ st calls => goodState nm st ∧ goodCalls nm calls

/-- Well-named list of block steps. -/
def goodSteps (nm : Nat → String) : List BlockStep → Prop
  | [] => True
  | s :: rest => goodStep nm s ∧ goodSteps nm rest

/-- Well-named list of call records. -/
def goodCalls (nm : Nat → String) : List FastCall → Prop
  | [] => True
  | c :: rest => goodCall nm c ∧ goodCalls nm rest
end

mutual
/-- Nesting rank of a call record, a fuel bound for its decoder. -/
def crank : FastCall → Nat
  | FastCall.mk _ _ _ steps _ _ => 1 + srankList steps

/-- Nesting rank of a block step. -/
def srank : BlockStep → Nat
  | BlockStep.mk _ _ calls => 1 + crankList calls

/-- Nesting rank of a list of block steps. -/
def srankList : List BlockStep → Nat
  | [] => 0
  | s :: rest => max (srank s) (srankList rest)

/-- Nesting rank of a list of call records. -/
def crankList : List FastCall → Nat
  | [] => 0
  | c :: rest => max (crank c) (crankList rest)
end

/-- Field-by-field match of a decoded state against the original: names map
through the naming function, values agree under the type-tag-then-payload
equality varValEq, heap addresses and cells agree under Integer equality. -/
def stateMatches (nm : Nat → String) (s : FastState) (t : StateS) : Prop :=
  List.Forall₂ (fun p q => q.1 = valueName nm p.1 ∧ varValEq p.2 q.2 = true)
    s.vars t.vars ∧
  List.Forall₂ (fun p q => Integer.ieq p.1 q.1 = true ∧ Integer.ieq p.2 q.2 = true)
    s.heap t.heap

mutual
/-- Field-by-field match of a decoded call record against the original. -/
def callMatches (nm : Nat → String) : FastCall → CallS → Prop
  | FastCall.mk fn es rs steps ee bv, CallS.mk fn2 es2 rs2 steps2 ee2 bv2 =>
      fn2 = fn ∧ stateMatches nm es es2 ∧ stateMatches nm rs rs2 ∧
      stepsMatch nm steps steps2 ∧ ee2 = ee ∧ bv2 = bv

/-- Field-by-field match of a decoded block step against the original. -/
def stepMatches (nm : Nat → String) : BlockStep → BlockStepS → Prop
  | BlockStep.mk bn st calls, BlockStepS.mk bn2 st2 calls2 =>
      bn2 = bn ∧ stateMatches nm st st2 ∧ callsMatch nm calls calls2

/-- Elementwise match of decoded block-step lists (same length). -/
def stepsMatch (nm : Nat → String) : List BlockStep → List BlockStepS → Prop
  | [], [] => True
  | s :: rest, t :: trest => stepMatches nm s t ∧ stepsMatch nm rest trest
  | _, _ => False

/-- Elementwise match of decoded call-record lists (same length). -/
def callsMatch (nm : Nat → String) : List FastCall → List CallS → Prop
  | [], [] => True
  | c :: rest, d :: drest => callMatches nm c d ∧ callsMatch nm rest drest
  | _, _ => False
end

/-- Naming function of the C4 witness run. -/
def nmW : Nat → String := fun n => String.append "v" (natDecString n)

/-- State of the C4 witness record: a 101-bit variable value and a 101-bit
negative heap cell, wider than any fixed machine width. -/
def stW4 : FastState :=
  ⟨[(some 1, VarVal.int (Integer.unbounded 1267650600228229401496703205376))],
   [(Integer.unbounded 5, Integer.unbounded (-1267650600228229401496703205376))]⟩

/-- Call record of the C4 witness: one block step, no nested calls. -/
def cW4 : FastCall :=
  FastCall.mk "main" stW4 stW4 [BlockStep.mk "entry" stW4 []] false 3

/-- Encoded state of the C10 witness: empty variables map, one heap entry
with decimal address 5 and decimal value 7. -/
def itemW10 : CBOR :=
  CBOR.mapItem
    [(CBOR.stringItem "variables", CBOR.mapItem []),
     (CBOR.stringItem "heap",
      CBOR.mapItem [(CBOR.stringItem "5", CBOR.stringItem "7")])]

/-- Decoded state of the C10 witness. -/
def stW10 : StateS := ⟨[], [(Integer.unbounded 5, Integer.unbounded 7)]⟩

/-- C3: the claim states that a store immediately followed by a load of the
same width at the same address returns the stored value. On the code this
fails in bounded mode for any multi-byte width: storing the 16-bit value 258
at address 0 writes the three byte cells 2, 1, 0 (least-significant byte at
the highest offset), while the load reassembles the two cells 0 and 1
most-significant-first, returning 1 instead of 258. -/
theorem claim_C3_bounded_store_load_roundtrip_fails :
    (do
        let s1 ← interpretInstruction true
          (Instr.store (IRValue.constInt 64 0) (IRValue.constInt 16 258)) stEmpty
        let s2 ← interpretInstruction true (Instr.load 7 16 (IRValue.constInt 64 0)) s1
        Except.ok (getVar s2.vars (some 7)) : Except IError (Option VarVal))
      = Except.ok (some (VarVal.int (Integer.bounded 16 1))) ∧
    (Integer.bounded 16 1 : Integer) ≠ Integer.bounded 16 258 := by
  exact ⟨rfl, by decide⟩

/-- C8: the claim states that an integer-to-pointer cast binds the cast's
own value reference to the operand coerced to 64 bits, leaving the return
sentinel unchanged. On the code the result is stored under
state.variables[ptrToInt] where ptrToInt is the null pointer of the failed
dyn_cast in the enclosing branch chain — that is, under the ReturnName
sentinel: the sentinel's previous value 7 is clobbered with the coerced
value and the cast's own reference (9) stays unbound. -/
theorem claim_C8_inttoptr_binds_return_sentinel :
    interpretInstruction true (Instr.intToPtr 9 (IRValue.ref 2)) stC8
      = Except.ok { vars := [(some 2, VarVal.int (Integer.bounded 32 5)),
                             (none, VarVal.int (Integer.bounded 64 5))], heap := [] } ∧
    (interpretInstruction true (Instr.intToPtr 9 (IRValue.ref 2)) stC8).map
        (fun s => getVar s.vars (some 9))
      = Except.ok none := by
  exact ⟨rfl, rfl⟩

/-- C5 counterexample: the claim states that any instruction outside the
supported set fails loudly and immediately, aborting the interpretation and
never binding a fabricated result. A 1-bit And instruction is outside the
supported set (only Or is handled by interpretBoolBinOp), yet interpretation
returns successfully and binds the fabricated result false — for operands
true and true. -/
theorem claim_C5_counterexample_unsupported_binop_continues :
    interpretInstruction false (Instr.binOp 3 1 BinOp.bitAnd (IRValue.ref 1) (IRValue.ref 2)) stC5
      = Except.ok (bindVar stC5 (some 3) (VarVal.bool false)) := by
  exact rfl

/-- C5 amended: an unsupported boolean binary opcode is logged but does not
abort: the interpreter stores the preinitialized false result and continues;
an unsupported terminator is logged and treated exactly like a return (no
next block, no error). -/
theorem claim_C5_amended_unsupported_logs_and_continues :
    (∀ (m : Bool) (st : FastState) (id : Nat) (op : BinOp) (v0 v1 : IRValue) (b0 b1 : Bool),
        op ≠ BinOp.bitOr →
        resolveValue m v0 st = Except.ok (VarVal.bool b0) →
        resolveValue m v1 st = Except.ok (VarVal.bool b1) →
        interpretInstruction m (Instr.binOp id 1 op v0 v1) st
          = Except.ok (bindVar st (some id) (VarVal.bool false))) ∧
    (∀ (m : Bool) (st : FastState),
        interpretTerminator m Terminator.unsupportedTerm st = Except.ok (none, st)) := by
  constructor
  · intro m st id op v0 v1 b0 b1 hne h0 h1
    have hop : interpretBoolBinOp op b0 b1 = false := by
      cases op <;> simp_all [interpretBoolBinOp]
    have hstep : interpretInstruction m (Instr.binOp id 1 op v0 v1) st
        = Except.ok (bindVar st (some id) (VarVal.bool (interpretBoolBinOp op b0 b1))) := by
      simp only [interpretInstruction, h0, h1]
      rfl
    rw [hstep, hop]
  · intro m st
    rfl

/-- C5 witness: the amended theorem applied at a concrete unsupported opcode
(Add on booleans) and a concrete state. -/
theorem claim_C5_amended_witness :
    interpretInstruction false (Instr.binOp 3 1 BinOp.add (IRValue.ref 1) (IRValue.ref 2)) stC5
      = Except.ok (bindVar stC5 (some 3) (VarVal.bool false)) ∧
    interpretTerminator false Terminator.unsupportedTerm stEmpty = Except.ok (none, stEmpty) :=
  ⟨claim_C5_amended_unsupported_logs_and_continues.1 false stC5 3 BinOp.add
      (IRValue.ref 1) (IRValue.ref 2) true true (by decide) rfl rfl,
   claim_C5_amended_unsupported_logs_and_continues.2 false stEmpty⟩

/-- C1: the claim states that a call instruction recursively interprets the
callee (the function being called, not the caller). The code takes the
function through CallInst::getFunction, which returns the function
containing the instruction — the caller. Interpreting f (whose block B calls
the distinct function g) records a nested call of f itself: the nested call
record in block B carries function name f, even though the call instruction
names g. -/
theorem claim_C1_call_interprets_enclosing_function :
    ((interpretFunction false fC1 eC1 10 100).map (fun c =>
        (c.functionName, c.earlyExit, c.blocksVisited,
         c.steps.map (fun s => s.calls.map (fun c2 => c2.functionName)))))
      = Except.ok ("f", false, 4, [[], ["f"]]) ∧
    (lookupBlock fC1 "B").map Block.instrs
      = some [Instr.call 1 "g" [IRValue.constInt 1 0]] ∧
    "f" ≠ "g" := by
  refine ⟨?_, ?_, by decide⟩
  · rfl
  · rfl

/-- Reduction of an Except bind on a success value. -/
@[simp] theorem ebind_ok {ε α β : Type} (a : α) (f : α → Except ε β) :
    ((Except.ok a : Except ε α) >>= f) = f a := rfl

/-- Reduction of an Except bind on an error value. -/
@[simp] theorem ebind_error {ε α β : Type} (e : ε) (f : α → Except ε β) :
    ((Except.error e : Except ε α) >>= f) = Except.error e := rfl

/-- Instruction processing never changes the snapshot it was handed: the
step recorded by instrGo is exactly its step argument. -/
theorem instrGo_step_eq (mode : Bool) (f : Func) (term : Terminator) :
    ∀ (fuel : Nat) (instrs : List Instr) (step state : FastState) (bv ms : Nat)
      (calls : List FastCall) (out : BlockUpdate × FastState),
      instrGo mode f term instrs step state bv ms calls fuel = Except.ok out →
      out.1.step = step := by
  intro fuel
  induction fuel with
  | zero =>
      intro instrs step state bv ms calls out h
      simp [instrGo] at h
  | succ n ih =>
      intro instrs step state bv ms calls out h
      cases instrs with
      | nil =>
          simp only [instrGo] at h
          cases hr : interpretTerminator mode term state with
          | error e => rw [hr] at h; simp at h
          | ok r =>
              rw [hr] at h
              simp only [ebind_ok, Except.ok.injEq] at h
              subst h
              rfl
      | cons i rest =>
          cases i with
          | call id cn args =>
              simp only [instrGo] at h
              cases ha : args.mapM (fun a => resolveValue mode a state) with
              | error e => rw [ha] at h; simp at h
              | ok argVals =>
                  rw [ha] at h
                  simp only [ebind_ok] at h
                  cases hc : interpretFunction mode f
                      ⟨(f.params.zip argVals).map (fun p => (some p.1, p.2)), state.heap⟩
                      (u32sub ms bv) n with
                  | error e => rw [hc] at h; simp at h
                  | ok c =>
                      rw [hc] at h
                      simp only [ebind_ok] at h
                      by_cases hcond : u32add bv c.blocksVisited > ms ∨ c.earlyExit = true
                      · have hcond2 : (u32add bv c.blocksVisited > ms || c.earlyExit) = true := by
                          rcases hcond with h1 | h1 <;> simp [h1]
                        rw [if_pos hcond2] at h
                        simp only [Except.ok.injEq] at h
                        subst h
                        rfl
                      · have hcond2 : ¬((u32add bv c.blocksVisited > ms || c.earlyExit) = true) := by
                          simp only [Bool.or_eq_true, decide_eq_true_eq] at *
                          tauto
                        rw [if_neg hcond2] at h
                        cases hg : getVar c.returnState.vars none with
                        | none => rw [hg] at h; simp at h
                        | some rv =>
                            rw [hg] at h
                            exact ih rest step _ _ ms _ out h
          | binOp id w op v0 v1 =>
              simp only [instrGo] at h
              cases hs : interpretInstruction mode (Instr.binOp id w op v0 v1) state with
              | error e => rw [hs] at h; simp at h
              | ok s1 => rw [hs] at h; simp only [ebind_ok] at h; exact ih rest step s1 bv ms calls out h
          | icmp id pred v0 v1 =>
              simp only [instrGo] at h
              cases hs : interpretInstruction mode (Instr.icmp id pred v0 v1) state with
              | error e => rw [hs] at h; simp at h
              | ok s1 => rw [hs] at h; simp only [ebind_ok] at h; exact ih rest step s1 bv ms calls out h
          | boolToInt id dw v =>
              simp only [instrGo] at h
              cases hs : interpretInstruction mode (Instr.boolToInt id dw v) state with
              | error e => rw [hs] at h; simp at h
              | ok s1 => rw [hs] at h; simp only [ebind_ok] at h; exact ih rest step s1 bv ms calls out h
          | zextInstr id dw v =>
              simp only [instrGo] at h
              cases hs : interpretInstruction mode (Instr.zextInstr id dw v) state with
              | error e => rw [hs] at h; simp at h
              | ok s1 => rw [hs] at h; simp only [ebind_ok] at h; exact ih rest step s1 bv ms calls out h
          | sextInstr id dw v =>
              simp only [instrGo] at h
              cases hs : interpretInstruction mode (Instr.sextInstr id dw v) state with
              | error e => rw [hs] at h; simp at h
              | ok s1 => rw [hs] at h; simp only [ebind_ok] at h; exact ih rest step s1 bv ms calls out h
          | ptrToInt id dw v =>
              simp only [instrGo] at h
              cases hs : interpretInstruction mode (Instr.ptrToInt id dw v) state with
              | error e => rw [hs] at h; simp at h
              | ok s1 => rw [hs] at h; simp only [ebind_ok] at h; exact ih rest step s1 bv ms calls out h
          | intToPtr id v =>
              simp only [instrGo] at h
              cases hs : interpretInstruction mode (Instr.intToPtr id v) state with
              | error e => rw [hs] at h; simp at h
              | ok s1 => rw [hs] at h; simp only [ebind_ok] at h; exact ih rest step s1 bv ms calls out h
          | otherCast id v =>
              simp only [instrGo] at h
              cases hs : interpretInstruction mode (Instr.otherCast id v) state with
              | error e => rw [hs] at h; simp at h
              | ok s1 => rw [hs] at h; simp only [ebind_ok] at h; exact ih rest step s1 bv ms calls out h
          | load id w v =>
              simp only [instrGo] at h
              cases hs : interpretInstruction mode (Instr.load id w v) state with
              | error e => rw [hs] at h; simp at h
              | ok s1 => rw [hs] at h; simp only [ebind_ok] at h; exact ih rest step s1 bv ms calls out h
          | store pv vv =>
              simp only [instrGo] at h
              cases hs : interpretInstruction mode (Instr.store pv vv) state with
              | error e => rw [hs] at h; simp at h
              | ok s1 => rw [hs] at h; simp only [ebind_ok] at h; exact ih rest step s1 bv ms calls out h
          | select id cv tv fv =>
              simp only [instrGo] at h
              cases hs : interpretInstruction mode (Instr.select id cv tv fv) state with
              | error e => rw [hs] at h; simp at h
              | ok s1 => rw [hs] at h; simp only [ebind_ok] at h; exact ih rest step s1 bv ms calls out h
          | unsupportedInstr =>
              simp only [instrGo] at h
              cases hs : interpretInstruction mode Instr.unsupportedInstr state with
              | error e => rw [hs] at h; simp at h
              | ok s1 => rw [hs] at h; simp only [ebind_ok] at h; exact ih rest step s1 bv ms calls out h

/-- Unfolding of instrGo on a non-call instruction: the instruction is
delegated to interpretInstruction and processing continues. -/
theorem instrGo_cons_noncall (mode : Bool) (f : Func) (term : Terminator)
    (i : Instr) (hi : ∀ id cn args, i ≠ Instr.call id cn args)
    (rest : List Instr) (step state : FastState) (bv ms : Nat)
    (calls : List FastCall) (n : Nat) :
    instrGo mode f term (i :: rest) step state bv ms calls (n + 1)
      = (interpretInstruction mode i state) >>= fun s1 =>
          instrGo mode f term rest step s1 bv ms calls n := by
  cases i <;> first
    | rfl
    | exact absurd rfl (hi _ _ _)

/-- Unfolding of freeInstrGo on a non-call instruction. -/
theorem freeInstrGo_cons_noncall (mode : Bool) (f : Func) (term : Terminator)
    (i : Instr) (hi : ∀ id cn args, i ≠ Instr.call id cn args)
    (rest : List Instr) (step state : FastState) (bv : Nat)
    (calls : List FastCall) (n : Nat) :
    freeInstrGo mode f term (i :: rest) step state bv calls (n + 1)
      = (interpretInstruction mode i state) >>= fun s1 =>
          freeInstrGo mode f term rest step s1 bv calls n := by
  cases i <;> first
    | rfl
    | exact absurd rfl (hi _ _ _)

/-- C6: the snapshot recorded for a block is the state right after PHI
resolution: whenever interpretBlock succeeds, the step state of the returned
BlockUpdate is exactly the result of running the PHI loop — which picks each
incoming value by the previous block's identity — on the incoming state,
before any later instruction of the block executes. -/
theorem claim_C6_snapshot_is_post_phi_state (mode : Bool) (f : Func) (blk : Block)
    (prev : Option String) (state : FastState) (ms fuel : Nat)
    (out : BlockUpdate × FastState)
    (h : interpretBlockF mode f blk prev state ms fuel = Except.ok out) :
    interpretPHIs mode blk.phis prev state = Except.ok out.1.step := by
  cases fuel with
  | zero => simp [interpretBlockF] at h
  | succ n =>
      simp only [interpretBlockF] at h
      cases hp : interpretPHIs mode blk.phis prev state with
      | error e => rw [hp] at h; simp at h
      | ok s1 =>
          rw [hp] at h
          simp only [ebind_ok] at h
          have := instrGo_step_eq mode f blk.term n blk.instrs s1 s1 1 ms [] out h
          rw [this]

/-- C6 witness: the claim theorem applied to the concrete block blkC6. -/
theorem claim_C6_witness :
    interpretPHIs false blkC6.phis (some "p") stEmpty = Except.ok outC6.1.step :=
  claim_C6_snapshot_is_post_phi_state false fC1 blkC6 (some "p") stEmpty 7 50 outC6 rfl

/-- Lookup after an overwrite at the same key. -/
theorem getVar_setVar_eq (m : FastVarMap) (k : Option Nat) (v : VarVal) :
    getVar (setVar m k v) k = some v := by
  induction m with
  | nil => simp [setVar, getVar]
  | cons p rest ih =>
      obtain ⟨k0, v0⟩ := p
      by_cases h : k0 = k
      · simp [setVar, h, getVar]
      · simpa [setVar, h, getVar] using ih

/-- Lookup after an overwrite at a different key. -/
theorem getVar_setVar_ne (m : FastVarMap) (k k2 : Option Nat) (v : VarVal)
    (h : k ≠ k2) : getVar (setVar m k v) k2 = getVar m k2 := by
  induction m with
  | nil => simp [setVar, getVar, h]
  | cons p rest ih =>
      obtain ⟨k0, v0⟩ := p
      by_cases hp : k0 = k
      · subst hp
        simp [setVar, getVar, h]
      · by_cases hp2 : k0 = k2
        · subst hp2
          simp [setVar, hp, getVar, Ne.symm h]
        · simpa [setVar, hp, getVar, hp2] using ih

/-- Overwriting a binding with the value it already holds keeps the map. -/
theorem setVar_self (m : FastVarMap) (k : Option Nat) (v : VarVal)
    (h : getVar m k = some v) : setVar m k v = m := by
  induction m with
  | nil => simp [getVar] at h
  | cons p rest ih =>
      obtain ⟨k0, v0⟩ := p
      by_cases hp : k0 = k
      · subst hp
        simp [getVar] at h
        simp [setVar, h]
      · simp [getVar, hp] at h
        simp [setVar, hp, ih h]

/-- Resolution of an operand is unchanged by binding an unrelated key. -/
theorem resolveValue_bindVar_ne (mode : Bool) (pv : IRValue) (st : FastState)
    (k : Option Nat) (v : VarVal) (hk : ∀ r, pv = IRValue.ref r → some r ≠ k) :
    resolveValue mode pv (bindVar st k v) = resolveValue mode pv st := by
  cases pv with
  | ref r =>
      have : k ≠ some r := fun h => (hk r rfl) h.symm
      simp [resolveValue, bindVar, getVar_setVar_ne _ _ _ _ this]
  | constInt w bits => rfl
  | nullPtr => rfl

/-- Heap lookup distributes over append. -/
theorem heapGet_append (h1 h2 : Heap) (k : Integer) :
    heapGet (h1 ++ h2) k = (heapGet h1 k).orElse (fun _ => heapGet h2 k) := by
  induction h1 with
  | nil => simp [heapGet]
  | cons p rest ih =>
      obtain ⟨k0, v0⟩ := p
      by_cases hp : Integer.ieq k0 k
      · simp [heapGet, hp]
      · simpa [heapGet, hp] using ih

/-- Behaviour of heapInsert on a key that is absent. -/
theorem heapInsert_absent (h : Heap) (k v : Integer) (hab : heapGet h k = none) :
    heapInsert h k v = (h ++ [(k, v)], v) := by
  simp [heapInsert, hab]

/-- Behaviour of heapInsert on a key that is present. -/
theorem heapInsert_present (h : Heap) (k v v0 : Integer)
    (hp : heapGet h k = some v0) : heapInsert h k v = (h, v0) := by
  simp [heapInsert, hp]

/-- Value-based key equality is reflexive. -/
theorem ieq_refl (k : Integer) : Integer.ieq k k = true := by
  simp [Integer.ieq]

/-- Folding a zero byte into a zero accumulator keeps the accumulator zero. -/
theorem loadStep_zero_val (w bytes : Nat) :
    Nat.lor ((0 * 2 ^ 8) % 2 ^ w)
      (if 8 < 8 * bytes then toPattern (8 * bytes) (toSigned 8 0) else 0) = 0 := by
  have h0 : toSigned 8 0 = 0 := by decide
  have h1 : ∀ t, toPattern t (0 : Int) = 0 := by
    intro t
    simp [toPattern]
  rw [h0]
  split <;> simp [h1] <;> decide

/-- Byte loop of a bounded load over addresses that are absent or already
hold a zero byte cell: the loop succeeds, accumulates zero, extends the heap
only by zero-valued byte cells, preserves all present cells, and leaves all
the read addresses holding zero byte cells. -/
theorem loadBytes_zeros_fresh (ptr : Integer) (w bytes : Nat) (hwb : 8 * bytes = w) :
    ∀ (r i : Nat) (h : Heap),
      (∀ j, j < r → heapGet h (keyAt true ptr (i + j)) = none ∨
                    heapGet h (keyAt true ptr (i + j)) = some (Integer.bounded 8 0)) →
      ∃ h2, loadBytes true ptr w bytes r i 0 h = Except.ok (0, h2) ∧
        (∃ extra, h2 = h ++ extra ∧ ∀ p ∈ extra, p.2 = Integer.bounded 8 0) ∧
        (∀ k2 x, heapGet h k2 = some x → heapGet h2 k2 = some x) ∧
        (∀ j, j < r → heapGet h2 (keyAt true ptr (i + j)) = some (Integer.bounded 8 0)) := by
  intro r
  induction r with
  | zero =>
      intro i h _
      refine ⟨h, by simp [loadBytes], ⟨[], by simp⟩, fun k2 x hx => hx, fun j hj => absurd hj (by omega)⟩
  | succ r ih =>
      intro i h hab
      have hab0 := hab 0 (by omega)
      rw [Nat.add_zero] at hab0
      have hnext : ∀ (h1 : Heap),
          (∀ k2 x, heapGet h k2 = some x → heapGet h1 k2 = some x) →
          (∀ k2, heapGet h1 k2 = heapGet h k2 ∨ heapGet h1 k2 = some (Integer.bounded 8 0)) →
          (∀ j, j < r → heapGet h1 (keyAt true ptr (i + 1 + j)) = none ∨
                        heapGet h1 (keyAt true ptr (i + 1 + j)) = some (Integer.bounded 8 0)) := by
        intro h1 hmono hcase j hj
        have := hab (j + 1) (by omega)
        have harg : i + (j + 1) = i + 1 + j := by omega
        rw [harg] at this
        rcases hcase (keyAt true ptr (i + 1 + j)) with hsame | hzero
        · rw [hsame]
          exact this
        · right; exact hzero
      rcases hab0 with habs | hpres
      · -- the cell is inserted fresh
        have hins := heapInsert_absent h (keyAt true ptr i) (Integer.bounded 8 0) habs
        have hget1 : ∀ k2 x, heapGet h k2 = some x →
            heapGet (h ++ [(keyAt true ptr i, Integer.bounded 8 0)]) k2 = some x := by
          intro k2 x hx
          rw [heapGet_append, hx]
          rfl
        have hcase1 : ∀ k2, heapGet (h ++ [(keyAt true ptr i, Integer.bounded 8 0)]) k2 = heapGet h k2 ∨
            heapGet (h ++ [(keyAt true ptr i, Integer.bounded 8 0)]) k2 = some (Integer.bounded 8 0) := by
          intro k2
          rw [heapGet_append]
          cases hk : heapGet h k2 with
          | some x => left; rfl
          | none =>
              by_cases hie : Integer.ieq (keyAt true ptr i) k2
              · right; simp [heapGet, hie, Option.orElse]
              · left; simp [heapGet, hie, Option.orElse]
        obtain ⟨h2, hrun, ⟨extra, hex, hz⟩, hmono, hkeys⟩ :=
          ih (i + 1) (h ++ [(keyAt true ptr i, Integer.bounded 8 0)])
            (hnext _ hget1 hcase1)
        refine ⟨h2, ?_, ?_, ?_, ?_⟩
        · show loadBytes true ptr w bytes (r + 1) i 0 h = Except.ok (0, h2)
          simp only [loadBytes]
          rw [show (Integer.add (Integer.asPointer true ptr)
                (Integer.asPointer true (Integer.unbounded (Int.ofNat i)))) = keyAt true ptr i from rfl]
          rw [hins]
          simp only [if_pos hwb, if_pos rfl]
          rw [loadStep_zero_val w bytes]
          exact hrun
        · refine ⟨(keyAt true ptr i, Integer.bounded 8 0) :: extra, ?_, ?_⟩
          · rw [hex, List.append_assoc]
            rfl
          · intro p hp
            cases hp with
            | head => rfl
            | tail _ hp2 => exact hz _ hp2
        · intro k2 x hx
          exact hmono k2 x (hget1 k2 x hx)
        · intro j hj
          rcases Nat.eq_zero_or_pos j with hj0 | hjpos
          · subst hj0
            rw [Nat.add_zero]
            refine hmono (keyAt true ptr i) (Integer.bounded 8 0) ?_
            rw [heapGet_append, habs]
            simp [heapGet, ieq_refl, Option.orElse]
          · have harg : i + j = i + 1 + (j - 1) := by omega
            rw [harg]
            exact hkeys (j - 1) (by omega)
      · -- the cell is already present with a zero byte
        have hins := heapInsert_present h (keyAt true ptr i) (Integer.bounded 8 0) _ hpres
        obtain ⟨h2, hrun, ⟨extra, hex, hz⟩, hmono, hkeys⟩ :=
          ih (i + 1) h (hnext h (fun k2 x hx => hx) (fun k2 => Or.inl rfl))
        refine ⟨h2, ?_, ⟨extra, hex, hz⟩, hmono, ?_⟩
        · show loadBytes true ptr w bytes (r + 1) i 0 h = Except.ok (0, h2)
          simp only [loadBytes]
          rw [show (Integer.add (Integer.asPointer true ptr)
                (Integer.asPointer true (Integer.unbounded (Int.ofNat i)))) = keyAt true ptr i from rfl]
          rw [hins]
          simp only [if_pos hwb, if_pos rfl]
          rw [loadStep_zero_val w bytes]
          exact hrun
        · intro j hj
          rcases Nat.eq_zero_or_pos j with hj0 | hjpos
          · subst hj0
            rw [Nat.add_zero]
            exact hmono _ _ hpres
          · have harg : i + j = i + 1 + (j - 1) := by omega
            rw [harg]
            exact hkeys (j - 1) (by omega)

/-- Byte loop of a bounded load over addresses that all hold zero byte
cells already: the loop returns zero and leaves the heap unchanged. -/
theorem loadBytes_zeros_present (ptr : Integer) (w bytes : Nat) (hwb : 8 * bytes = w) :
    ∀ (r i : Nat) (h : Heap),
      (∀ j, j < r → heapGet h (keyAt true ptr (i + j)) = some (Integer.bounded 8 0)) →
      loadBytes true ptr w bytes r i 0 h = Except.ok (0, h) := by
  intro r
  induction r with
  | zero =>
      intro i h _
      simp [loadBytes]
  | succ r ih =>
      intro i h hpres
      have hp0 := hpres 0 (by omega)
      rw [Nat.add_zero] at hp0
      have hins := heapInsert_present h (keyAt true ptr i) (Integer.bounded 8 0) _ hp0
      simp only [loadBytes]
      rw [show (Integer.add (Integer.asPointer true ptr)
            (Integer.asPointer true (Integer.unbounded (Int.ofNat i)))) = keyAt true ptr i from rfl]
      rw [hins]
      simp only [if_pos hwb, if_pos rfl]
      rw [loadStep_zero_val w bytes]
      refine ih (i + 1) h ?_
      intro j hj
      have := hpres (j + 1) (by omega)
      have harg : i + (j + 1) = i + 1 + j := by omega
      rw [harg] at this
      exact this

/-- C7: a load at an address none of whose cells are present returns zero of
the requested width and inserts the zero-valued cells (8-bit byte cells in
bounded mode, one word cell in unbounded mode), the zero fill is visible in
the resulting heap (which only grows, by zero cells), and repeating the
identical load on the resulting state succeeds with the same binding and no
further change at all. -/
theorem claim_C7_load_zero_fill (m : Bool) (id w : Nat) (pv : IRValue)
    (st : FastState) (addr : Integer)
    (hres : resolveValue m pv st = Except.ok (VarVal.int addr))
    (hid : ∀ r, pv = IRValue.ref r → r ≠ id)
    (hw : m = true → w % 8 = 0)
    (habsB : m = true → ∀ j, j < w / 8 → heapGet st.heap (keyAt true addr j) = none)
    (habsU : m = false → heapGet st.heap (Integer.asPointer false addr) = none) :
    ∃ st1, interpretInstruction m (Instr.load id w pv) st = Except.ok st1 ∧
      getVar st1.vars (some id)
        = some (VarVal.int (if m then Integer.bounded w 0 else Integer.unbounded 0)) ∧
      (∃ extra, st1.heap = st.heap ++ extra ∧
        ∀ p ∈ extra, p.2 = (if m then Integer.bounded 8 0 else Integer.unbounded 0)) ∧
      interpretInstruction m (Instr.load id w pv) st1 = Except.ok st1 := by
  cases m with
  | false =>
      have habs := habsU rfl
      have hins := heapInsert_absent st.heap (Integer.asPointer false addr)
        (Integer.unbounded 0) habs
      refine ⟨bindVar { st with heap := st.heap ++ [(Integer.asPointer false addr, Integer.unbounded 0)] }
          (some id) (VarVal.int (Integer.unbounded 0)), ?_, ?_, ?_, ?_⟩
      · simp only [interpretInstruction, hres, ebind_ok, hins]
        rfl
      · simp [bindVar, getVar_setVar_eq]
      · exact ⟨[(Integer.asPointer false addr, Integer.unbounded 0)], rfl, by simp⟩
      · have hres1 : resolveValue false pv
            (bindVar { st with heap := st.heap ++ [(Integer.asPointer false addr, Integer.unbounded 0)] }
              (some id) (VarVal.int (Integer.unbounded 0))) = Except.ok (VarVal.int addr) := by
          rw [resolveValue_bindVar_ne]
          · exact hres
          · intro r hr
            intro hc
            exact hid r hr (Option.some.injEq .. ▸ hc.symm ▸ rfl)
        have hpres1 : heapGet (st.heap ++ [(Integer.asPointer false addr, Integer.unbounded 0)])
            (Integer.asPointer false addr) = some (Integer.unbounded 0) := by
          rw [heapGet_append, habs]
          simp [heapGet, ieq_refl, Option.orElse]
        have hins1 := heapInsert_present
          (st.heap ++ [(Integer.asPointer false addr, Integer.unbounded 0)])
          (Integer.asPointer false addr) (Integer.unbounded 0) _ hpres1
        have hself : setVar (setVar st.vars (some id) (VarVal.int (Integer.unbounded 0)))
            (some id) (VarVal.int (Integer.unbounded 0))
            = setVar st.vars (some id) (VarVal.int (Integer.unbounded 0)) :=
          setVar_self _ _ _ (getVar_setVar_eq _ _ _)
        simp only [interpretInstruction]
        rw [hres1]
        simp only [ebind_ok]
        simp only [bindVar]
        rw [hins1]
        simp [hself]
  | true =>
      have hwb : 8 * (w / 8) = w := Nat.mul_div_cancel' (Nat.dvd_of_mod_eq_zero (hw rfl))
      obtain ⟨h2, hrun, ⟨extra, hex, hz⟩, hmono, hkeys⟩ :=
        loadBytes_zeros_fresh addr w (w / 8) hwb (w / 8) 0 st.heap
          (fun j hj => Or.inl (by simpa using habsB rfl j hj))
      refine ⟨bindVar { st with heap := h2 } (some id) (VarVal.int (Integer.bounded w 0)), ?_, ?_, ?_, ?_⟩
      · simp only [interpretInstruction, hres, ebind_ok]
        rw [hrun]
        rfl
      · simp [bindVar, getVar_setVar_eq]
      · exact ⟨extra, by simpa using hex, by simpa using hz⟩
      · have hres1 : resolveValue true pv
            (bindVar { st with heap := h2 } (some id) (VarVal.int (Integer.bounded w 0)))
            = Except.ok (VarVal.int addr) := by
          rw [resolveValue_bindVar_ne]
          · exact hres
          · intro r hr hc
            exact hid r hr (Option.some.injEq .. ▸ hc.symm ▸ rfl)
        have hrun2 : loadBytes true addr w (w / 8) (w / 8) 0 0 h2 = Except.ok (0, h2) :=
          loadBytes_zeros_present addr w (w / 8) hwb (w / 8) 0 h2
            (fun j hj => by simpa using hkeys j hj)
        simp only [interpretInstruction]
        rw [hres1]
        simp only [ebind_ok]
        simp only [bindVar]
        rw [if_pos trivial]
        rw [hrun2]
        have hself : setVar (setVar st.vars (some id) (VarVal.int (Integer.bounded w 0)))
            (some id) (VarVal.int (Integer.bounded w 0))
            = setVar st.vars (some id) (VarVal.int (Integer.bounded w 0)) :=
          setVar_self _ _ _ (getVar_setVar_eq _ _ _)
        simp [hself]

/-- C7 witness: the zero-fill theorem applied to a concrete 16-bit load at
address 0 on the empty heap in bounded mode. -/
theorem claim_C7_witness :
    ∃ st1, interpretInstruction true (Instr.load 7 16 (IRValue.constInt 64 0)) stEmpty
        = Except.ok st1 ∧
      getVar st1.vars (some 7)
        = some (VarVal.int (if true then Integer.bounded 16 0 else Integer.unbounded 0)) ∧
      (∃ extra, st1.heap = stEmpty.heap ++ extra ∧
        ∀ p ∈ extra, p.2 = (if true then Integer.bounded 8 0 else Integer.unbounded 0)) ∧
      interpretInstruction true (Instr.load 7 16 (IRValue.constInt 64 0)) st1 = Except.ok st1 :=
  claim_C7_load_zero_fill true 7 16 (IRValue.constInt 64 0) stEmpty (Integer.bounded 64 0)
    rfl (fun _ hr => by cases hr) (fun _ => rfl) (fun _ _ _ => rfl) (fun h => nomatch h)

/-- C9 counterexample: the claim states that blocksVisited always equals the
sum over the recorded Block Steps of (1 + the blocksVisited of the step's
nested Call Records). On a truncated run this fails: when a nested call
trips the budget, interpretBlock adds the callee's blocksVisited to the
count but returns WITHOUT appending the call record to the step's call list.
Interpreting fC1 with budget 2 yields blocksVisited 3 but a record whose
step-weight sum is 2 (both recorded steps have empty call lists). -/
theorem claim_C9_counterexample_truncated_sum_mismatch :
    ((interpretFunction false fC1 eC1 2 100).map (fun c =>
        (c.blocksVisited, callWeight c, c.earlyExit)))
      = Except.ok (3, 2, true) ∧ (3 : Nat) ≠ 2 := by
  exact ⟨rfl, by decide⟩

/-- Weight bookkeeping of the instruction loop: on a block that completes
without early exit, the final count is congruent (mod 2^32) to the base plus
the blocksVisited of all recorded calls. -/
theorem instrGo_weight (mode : Bool) (f : Func) (term : Terminator) :
    ∀ (fuel : Nat) (instrs : List Instr) (step state : FastState) (bv ms : Nat)
      (calls : List FastCall) (out : BlockUpdate × FastState) (b0 : Nat),
      instrGo mode f term instrs step state bv ms calls fuel = Except.ok out →
      out.1.earlyExit = false →
      bv < u32Mod →
      bv % u32Mod = (b0 + (calls.map FastCall.blocksVisited).sum) % u32Mod →
      out.1.blocksVisited < u32Mod ∧
      out.1.blocksVisited % u32Mod
        = (b0 + (out.1.calls.map FastCall.blocksVisited).sum) % u32Mod := by
  intro fuel
  induction fuel with
  | zero =>
      intro instrs step state bv ms calls out b0 h
      simp [instrGo] at h
  | succ n ih =>
      intro instrs step state bv ms calls out b0 h hee hlt hmod
      cases instrs with
      | nil =>
          simp only [instrGo] at h
          cases hr : interpretTerminator mode term state with
          | error e => rw [hr] at h; simp at h
          | ok r =>
              rw [hr] at h
              simp only [ebind_ok, Except.ok.injEq] at h
              subst h
              exact ⟨hlt, hmod⟩
      | cons i rest =>
          cases i with
          | call id cn args =>
              simp only [instrGo] at h
              cases ha : args.mapM (fun a => resolveValue mode a state) with
              | error e => rw [ha] at h; simp at h
              | ok argVals =>
                  rw [ha] at h
                  simp only [ebind_ok] at h
                  cases hc : interpretFunction mode f
                      ⟨(f.params.zip argVals).map (fun p => (some p.1, p.2)), state.heap⟩
                      (u32sub ms bv) n with
                  | error e => rw [hc] at h; simp at h
                  | ok c =>
                      rw [hc] at h
                      simp only [ebind_ok] at h
                      by_cases hcond : (u32add bv c.blocksVisited > ms || c.earlyExit) = true
                      · rw [if_pos hcond] at h
                        simp only [Except.ok.injEq] at h
                        subst h
                        simp at hee
                      · rw [if_neg hcond] at h
                        cases hg : getVar c.returnState.vars none with
                        | none => rw [hg] at h; simp at h
                        | some rv =>
                            rw [hg] at h
                            have hlt1 : u32add bv c.blocksVisited < u32Mod := by
                              simp only [u32add, u32Mod]
                              omega
                            have hmod1 : u32add bv c.blocksVisited % u32Mod
                                = (b0 + ((calls ++ [c]).map FastCall.blocksVisited).sum) % u32Mod := by
                              simp only [u32add, List.map_append, List.sum_append,
                                List.map_cons, List.sum_cons, List.map_nil, List.sum_nil,
                                u32Mod] at hmod ⊢
                              omega
                            exact ih rest step _ _ ms (calls ++ [c]) out b0 h hee hlt1 hmod1
          | binOp id w op v0 v1 =>
              rw [instrGo_cons_noncall mode f term _ (by intro a b c h2; cases h2) rest step state bv ms calls n] at h
              cases hs : interpretInstruction mode (Instr.binOp id w op v0 v1) state with
              | error e => rw [hs] at h; simp at h
              | ok s1 =>
                  rw [hs] at h
                  simp only [ebind_ok] at h
                  exact ih rest step s1 bv ms calls out b0 h hee hlt hmod
          | icmp id pred v0 v1 =>
              rw [instrGo_cons_noncall mode f term _ (by intro a b c h2; cases h2) rest step state bv ms calls n] at h
              cases hs : interpretInstruction mode (Instr.icmp id pred v0 v1) state with
              | error e => rw [hs] at h; simp at h
              | ok s1 =>
                  rw [hs] at h
                  simp only [ebind_ok] at h
                  exact ih rest step s1 bv ms calls out b0 h hee hlt hmod
          | boolToInt id dw v =>
              rw [instrGo_cons_noncall mode f term _ (by intro a b c h2; cases h2) rest step state bv ms calls n] at h
              cases hs : interpretInstruction mode (Instr.boolToInt id dw v) state with
              | error e => rw [hs] at h; simp at h
              | ok s1 =>
                  rw [hs] at h
                  simp only [ebind_ok] at h
                  exact ih rest step s1 bv ms calls out b0 h hee hlt hmod
          | zextInstr id dw v =>
              rw [instrGo_cons_noncall mode f term _ (by intro a b c h2; cases h2) rest step state bv ms calls n] at h
              cases hs : interpretInstruction mode (Instr.zextInstr id dw v) state with
              | error e => rw [hs] at h; simp at h
              | ok s1 =>
                  rw [hs] at h
                  simp only [ebind_ok] at h
                  exact ih rest step s1 bv ms calls out b0 h hee hlt hmod
          | sextInstr id dw v =>
              rw [instrGo_cons_noncall mode f term _ (by intro a b c h2; cases h2) rest step state bv ms calls n] at h
              cases hs : interpretInstruction mode (Instr.sextInstr id dw v) state with
              | error e => rw [hs] at h; simp at h
              | ok s1 =>
                  rw [hs] at h
                  simp only [ebind_ok] at h
                  exact ih rest step s1 bv ms calls out b0 h hee hlt hmod
          | ptrToInt id dw v =>
              rw [instrGo_cons_noncall mode f term _ (by intro a b c h2; cases h2) rest step state bv ms calls n] at h
              cases hs : interpretInstruction mode (Instr.ptrToInt id dw v) state with
              | error e => rw [hs] at h; simp at h
              | ok s1 =>
                  rw [hs] at h
                  simp only [ebind_ok] at h
                  exact ih rest step s1 bv ms calls out b0 h hee hlt hmod
          | intToPtr id v =>
              rw [instrGo_cons_noncall mode f term _ (by intro a b c h2; cases h2) rest step state bv ms calls n] at h
              cases hs : interpretInstruction mode (Instr.intToPtr id v) state with
              | error e => rw [hs] at h; simp at h
              | ok s1 =>
                  rw [hs] at h
                  simp only [ebind_ok] at h
                  exact ih rest step s1 bv ms calls out b0 h hee hlt hmod
          | otherCast id v =>
              rw [instrGo_cons_noncall mode f term _ (by intro a b c h2; cases h2) rest step state bv ms calls n] at h
              cases hs : interpretInstruction mode (Instr.otherCast id v) state with
              | error e => rw [hs] at h; simp at h
              | ok s1 =>
                  rw [hs] at h
                  simp only [ebind_ok] at h
                  exact ih rest step s1 bv ms calls out b0 h hee hlt hmod
          | load id w v =>
              rw [instrGo_cons_noncall mode f term _ (by intro a b c h2; cases h2) rest step state bv ms calls n] at h
              cases hs : interpretInstruction mode (Instr.load id w v) state with
              | error e => rw [hs] at h; simp at h
              | ok s1 =>
                  rw [hs] at h
                  simp only [ebind_ok] at h
                  exact ih rest step s1 bv ms calls out b0 h hee hlt hmod
          | store pv vv =>
              rw [instrGo_cons_noncall mode f term _ (by intro a b c h2; cases h2) rest step state bv ms calls n] at h
              cases hs : interpretInstruction mode (Instr.store pv vv) state with
              | error e => rw [hs] at h; simp at h
              | ok s1 =>
                  rw [hs] at h
                  simp only [ebind_ok] at h
                  exact ih rest step s1 bv ms calls out b0 h hee hlt hmod
          | select id cv tv fv =>
              rw [instrGo_cons_noncall mode f term _ (by intro a b c h2; cases h2) rest step state bv ms calls n] at h
              cases hs : interpretInstruction mode (Instr.select id cv tv fv) state with
              | error e => rw [hs] at h; simp at h
              | ok s1 =>
                  rw [hs] at h
                  simp only [ebind_ok] at h
                  exact ih rest step s1 bv ms calls out b0 h hee hlt hmod
          | unsupportedInstr =>
              rw [instrGo_cons_noncall mode f term _ (by intro a b c h2; cases h2) rest step state bv ms calls n] at h
              cases hs : interpretInstruction mode Instr.unsupportedInstr state with
              | error e => rw [hs] at h; simp at h
              | ok s1 =>
                  rw [hs] at h
                  simp only [ebind_ok] at h
                  exact ih rest step s1 bv ms calls out b0 h hee hlt hmod

/-- Dichotomy on instructions: either a call or not. -/
theorem instr_call_or_noncall (i : Instr) :
    (∃ id cn args, i = Instr.call id cn args) ∨ (∀ id cn args, i ≠ Instr.call id cn args) := by
  cases i <;> simp

/-- Weight bookkeeping of a block that completes without early exit: its
blocksVisited is congruent to 1 plus the blocksVisited of its calls. -/
theorem interpretBlockF_weight (mode : Bool) (f : Func) (blk : Block)
    (prev : Option String) (state : FastState) (ms fuel : Nat)
    (out : BlockUpdate × FastState)
    (h : interpretBlockF mode f blk prev state ms fuel = Except.ok out)
    (hee : out.1.earlyExit = false) :
    out.1.blocksVisited < u32Mod ∧
    out.1.blocksVisited % u32Mod
      = (1 + (out.1.calls.map FastCall.blocksVisited).sum) % u32Mod := by
  cases fuel with
  | zero => simp [interpretBlockF] at h
  | succ n =>
      simp only [interpretBlockF] at h
      cases hp : interpretPHIs mode blk.phis prev state with
      | error e => rw [hp] at h; simp at h
      | ok s1 =>
          rw [hp] at h
          simp only [ebind_ok] at h
          exact instrGo_weight mode f blk.term n blk.instrs s1 s1 1 ms [] out 1 h hee
            (by simp [u32Mod]) (by simp)

/-- Weight bookkeeping of the function loop: a completed run's blocksVisited
is congruent to the sum of the step weights of its recorded steps. -/
theorem interpretLoop_weight (mode : Bool) (f : Func) :
    ∀ (fuel : Nat) (e : FastState) (prev : Option String) (cur : Block)
      (state : FastState) (steps : List BlockStep) (bv ms : Nat) (c : FastCall),
      interpretLoop mode f e prev cur state steps bv ms fuel = Except.ok c →
      c.earlyExit = false →
      bv < u32Mod →
      bv % u32Mod = (steps.map stepWeight).sum % u32Mod →
      c.blocksVisited < u32Mod ∧
      c.blocksVisited % u32Mod = (c.steps.map stepWeight).sum % u32Mod := by
  intro fuel
  induction fuel with
  | zero =>
      intro e prev cur state steps bv ms c h
      simp [interpretLoop] at h
  | succ n ih =>
      intro e prev cur state steps bv ms c h hee hlt hmod
      simp only [interpretLoop] at h
      cases hb : interpretBlockF mode f cur prev state (u32sub ms bv) n with
      | error er => rw [hb] at h; simp at h
      | ok r =>
          rw [hb] at h
          simp only [ebind_ok] at h
          by_cases hcond : (u32add bv r.1.blocksVisited > ms || r.1.earlyExit) = true
          · rw [if_pos hcond] at h
            simp only [Except.ok.injEq] at h
            subst h
            simp [FastCall.earlyExit] at hee
          · rw [if_neg hcond] at h
            have hbee : r.1.earlyExit = false := by
              rcases Bool.or_eq_false_iff.mp (Bool.not_eq_true _ |>.mp hcond) with ⟨_, h2⟩
              exact h2
            obtain ⟨hblt, hbmod⟩ := interpretBlockF_weight mode f cur prev state
              (u32sub ms bv) n r hb hbee
            have hlt1 : u32add bv r.1.blocksVisited < u32Mod := by
              simp only [u32add, u32Mod]; omega
            have hmod1 : u32add bv r.1.blocksVisited % u32Mod
                = ((steps ++ [BlockStep.mk cur.name r.1.step r.1.calls]).map stepWeight).sum % u32Mod := by
              simp only [u32add, List.map_append, List.sum_append, List.map_cons,
                List.sum_cons, List.map_nil, List.sum_nil, stepWeight, BlockStep.calls,
                u32Mod] at hmod hbmod ⊢
              omega
            cases hn : r.1.nextBlock with
            | none =>
                rw [hn] at h
                simp only [Except.ok.injEq] at h
                subst h
                exact ⟨hlt1, hmod1⟩
            | some nb =>
                rw [hn] at h
                simp only [] at h
                cases hl : lookupBlock f nb with
                | none => rw [hl] at h; simp at h
                | some blk2 =>
                    rw [hl] at h
                    exact ih e (some cur.name) blk2 r.2 _ _ ms c h hee hlt1 hmod1

/-- Sum of step weights dominates the number of steps. -/
theorem stepWeight_sum_ge_length (steps : List BlockStep) :
    steps.length ≤ (steps.map stepWeight).sum := by
  induction steps with
  | nil => simp
  | cons s rest ih =>
      simp only [List.length_cons, List.map_cons, List.sum_cons, stepWeight]
      omega

/-- Instruction loop of a block without call instructions: the visit count
and call list pass through unchanged and no early exit is signalled. -/
theorem instrGo_nocalls (mode : Bool) (f : Func) (term : Terminator) :
    ∀ (fuel : Nat) (instrs : List Instr) (step state : FastState) (bv ms : Nat)
      (calls : List FastCall) (out : BlockUpdate × FastState),
      ¬ callIn instrs →
      instrGo mode f term instrs step state bv ms calls fuel = Except.ok out →
      out.1.blocksVisited = bv ∧ out.1.earlyExit = false ∧ out.1.calls = calls := by
  intro fuel
  induction fuel with
  | zero =>
      intro instrs step state bv ms calls out _ h
      simp [instrGo] at h
  | succ n ih =>
      intro instrs step state bv ms calls out hnc h
      cases instrs with
      | nil =>
          simp only [instrGo] at h
          cases hr : interpretTerminator mode term state with
          | error e => rw [hr] at h; simp at h
          | ok r =>
              rw [hr] at h
              simp only [ebind_ok, Except.ok.injEq] at h
              subst h
              exact ⟨rfl, rfl, rfl⟩
      | cons i rest =>
          rcases instr_call_or_noncall i with ⟨id, cn, args, hi⟩ | hi
          · exact absurd ⟨id, cn, args, hi ▸ List.mem_cons_self i rest⟩ hnc
          · rw [instrGo_cons_noncall mode f term i hi rest step state bv ms calls n] at h
            cases hs : interpretInstruction mode i state with
            | error e => rw [hs] at h; simp at h
            | ok s1 =>
                rw [hs] at h
                simp only [ebind_ok] at h
                refine ih rest step s1 bv ms calls out ?_ h
                intro ⟨id2, cn2, args2, hmem⟩
                exact hnc ⟨id2, cn2, args2, List.mem_cons_of_mem i hmem⟩

/-- Block interpretation of a block without calls: one visit, no early exit,
no recorded calls. -/
theorem interpretBlockF_nocalls (mode : Bool) (f : Func) (blk : Block)
    (prev : Option String) (state : FastState) (ms fuel : Nat)
    (out : BlockUpdate × FastState) (hnc : ¬ callIn blk.instrs)
    (h : interpretBlockF mode f blk prev state ms fuel = Except.ok out) :
    out.1.blocksVisited = 1 ∧ out.1.earlyExit = false ∧ out.1.calls = [] := by
  cases fuel with
  | zero => simp [interpretBlockF] at h
  | succ n =>
      simp only [interpretBlockF] at h
      cases hp : interpretPHIs mode blk.phis prev state with
      | error e => rw [hp] at h; simp at h
      | ok s1 =>
          rw [hp] at h
          simp only [ebind_ok] at h
          exact instrGo_nocalls mode f blk.term n blk.instrs s1 s1 1 ms [] out hnc h

/-- Interpretation of a function whose entry block contains a call never
returns a call record: with the enclosing-function call semantics the entry
block's call re-enters the same entry block, so the recursion never reaches
a return (the model runs out of fuel for every finite fuel). -/
theorem callEntry_no_ok (mode : Bool) (f : Func) (blk0 : Block)
    (hblk : lookupBlock f f.entry = some blk0) (hcall : callIn blk0.instrs) :
    ∀ fuel : Nat,
      (∀ e B c, interpretFunction mode f e B fuel ≠ Except.ok c) ∧
      (∀ term instrs step state bv ms calls out, callIn instrs →
          instrGo mode f term instrs step state bv ms calls fuel ≠ Except.ok out) ∧
      (∀ prev state ms out, interpretBlockF mode f blk0 prev state ms fuel ≠ Except.ok out) ∧
      (∀ e prev state steps bv ms c,
          interpretLoop mode f e prev blk0 state steps bv ms fuel ≠ Except.ok c) := by
  intro fuel
  induction fuel with
  | zero =>
      refine ⟨?_, ?_, ?_, ?_⟩
      · intro e B c h
        simp [interpretFunction] at h
      · intro term instrs step state bv ms calls out hin h
        simp [instrGo] at h
      · intro prev state ms out h
        simp [interpretBlockF] at h
      · intro e prev state steps bv ms c h
        simp [interpretLoop] at h
  | succ n ih =>
      refine ⟨?_, ?_, ?_, ?_⟩
      · intro e B c h
        simp only [interpretFunction] at h
        rw [hblk] at h
        simp only [] at h
        exact ih.2.2.2 e none e [] 0 B c h
      · intro term instrs step state bv ms calls out hin h
        cases instrs with
        | nil =>
            rcases hin with ⟨a, b, c2, hm⟩
            cases hm
        | cons i rest =>
            rcases instr_call_or_noncall i with ⟨id, cn, args, hi⟩ | hi
            · subst hi
              simp only [instrGo] at h
              cases ha : args.mapM (fun a => resolveValue mode a state) with
              | error e => rw [ha] at h; simp at h
              | ok argVals =>
                  rw [ha] at h
                  simp only [ebind_ok] at h
                  cases hc : interpretFunction mode f
                      ⟨(f.params.zip argVals).map (fun p => (some p.1, p.2)), state.heap⟩
                      (u32sub ms bv) n with
                  | error e => rw [hc] at h; simp at h
                  | ok c2 => exact ih.1 _ _ _ hc
            · rw [instrGo_cons_noncall mode f term i hi rest step state bv ms calls n] at h
              cases hs : interpretInstruction mode i state with
              | error e => rw [hs] at h; simp at h
              | ok s1 =>
                  rw [hs] at h
                  simp only [ebind_ok] at h
                  refine ih.2.1 term rest step s1 bv ms calls out ?_ h
                  rcases hin with ⟨a, b, c2, hm⟩
                  cases hm with
                  | head => exact absurd rfl (hi a b c2)
                  | tail _ hm2 => exact ⟨a, b, c2, hm2⟩
      · intro prev state ms out h
        simp only [interpretBlockF] at h
        cases hp : interpretPHIs mode blk0.phis prev state with
        | error e => rw [hp] at h; simp at h
        | ok s1 =>
            rw [hp] at h
            simp only [ebind_ok] at h
            exact ih.2.1 blk0.term blk0.instrs s1 s1 1 ms [] out hcall h
      · intro e prev state steps bv ms c h
        simp only [interpretLoop] at h
        cases hb : interpretBlockF mode f blk0 prev state (u32sub ms bv) n with
        | error er => rw [hb] at h; simp at h
        | ok r => exact ih.2.2.1 prev state (u32sub ms bv) r hb

/-- C9 amended: (1) for every COMPLETED run (earlyExit = false) the reported
blocksVisited equals, modulo 2^32, the sum over the recorded Block Steps of
(1 plus the blocksVisited of the step's nested Call Records), with exact
equality and blocksVisited at least the number of recorded steps whenever
that sum is below 2^32 (on truncated runs the identity can fail because the
budget-tripping nested call is counted but not recorded); (2) every call
record a budget-0 run does produce consists of exactly one Block Step, with
blocksVisited = 1 and earlyExit = true (a budget-0 run of a function whose
entry block calls never produces a record at all). -/
theorem claim_C9_amended_blocksVisited_bookkeeping :
    (∀ (mode : Bool) (f : Func) (e : FastState) (B fuel : Nat) (c : FastCall),
        interpretFunction mode f e B fuel = Except.ok c → c.earlyExit = false →
        c.blocksVisited = callWeight c % u32Mod ∧
        (callWeight c < u32Mod →
          c.blocksVisited = callWeight c ∧ c.steps.length ≤ c.blocksVisited)) ∧
    (∀ (mode : Bool) (f : Func) (e : FastState) (fuel : Nat) (c : FastCall),
        interpretFunction mode f e 0 fuel = Except.ok c →
        c.steps.length = 1 ∧ c.blocksVisited = 1 ∧ c.earlyExit = true) := by
  constructor
  · intro mode f e B fuel c h hee
    cases fuel with
    | zero => simp [interpretFunction] at h
    | succ n =>
        simp only [interpretFunction] at h
        cases hlb : lookupBlock f f.entry with
        | none => rw [hlb] at h; simp at h
        | some blk0 =>
            rw [hlb] at h
            simp only [] at h
            obtain ⟨hlt, hmod⟩ := interpretLoop_weight mode f n e none blk0 e [] 0 B c h hee
              (by simp [u32Mod]) (by simp)
            have hw : c.blocksVisited = callWeight c % u32Mod := by
              have h2 : c.blocksVisited % u32Mod = c.blocksVisited := Nat.mod_eq_of_lt hlt
              rw [callWeight]
              omega
            refine ⟨hw, fun hsmall => ⟨?_, ?_⟩⟩
            · rw [hw, Nat.mod_eq_of_lt hsmall]
            · have := stepWeight_sum_ge_length c.steps
              rw [hw, Nat.mod_eq_of_lt hsmall]
              exact this
  · intro mode f e fuel c h
    cases fuel with
    | zero => simp [interpretFunction] at h
    | succ n =>
        simp only [interpretFunction] at h
        cases hlb : lookupBlock f f.entry with
        | none => rw [hlb] at h; simp at h
        | some blk0 =>
            rw [hlb] at h
            simp only [] at h
            by_cases hc : callIn blk0.instrs
            · exact absurd h ((callEntry_no_ok mode f blk0 hlb hc n).2.2.2 e none e [] 0 0 c)
            · cases n with
              | zero => simp [interpretLoop] at h
              | succ m =>
                  simp only [interpretLoop] at h
                  cases hb : interpretBlockF mode f blk0 none e (u32sub 0 0) m with
                  | error er => rw [hb] at h; simp at h
                  | ok r =>
                      rw [hb] at h
                      simp only [ebind_ok] at h
                      obtain ⟨hbv, hbee, hbcalls⟩ :=
                        interpretBlockF_nocalls mode f blk0 none e (u32sub 0 0) m r hc hb
                      have hcond : (u32add 0 r.1.blocksVisited > 0 || r.1.earlyExit) = true := by
                        rw [hbv]
                        simp [u32add, u32Mod]
                      rw [if_pos hcond] at h
                      simp only [Except.ok.injEq] at h
                      subst h
                      refine ⟨rfl, ?_, rfl⟩
                      show u32add 0 r.1.blocksVisited = 1
                      rw [hbv]
                      rfl

/-- C9 witness: both parts of the amended claim applied to concrete runs of
the one-block function fOne (budget 5 completes; budget 0 truncates). -/
theorem claim_C9_amended_witness :
    (cOne5.blocksVisited = callWeight cOne5 % u32Mod ∧
      (callWeight cOne5 < u32Mod →
        cOne5.blocksVisited = callWeight cOne5 ∧ cOne5.steps.length ≤ cOne5.blocksVisited)) ∧
    (cOne0.steps.length = 1 ∧ cOne0.blocksVisited = 1 ∧ cOne0.earlyExit = true) :=
  ⟨claim_C9_amended_blocksVisited_bookkeeping.1 false fOne stEmpty 5 100 cOne5 rfl rfl,
   claim_C9_amended_blocksVisited_bookkeeping.2 false fOne stEmpty 100 cOne0 rfl⟩

/-- Budget compliance of completed runs: the loop returns with earlyExit =
false only when the final count passed the check, so blocksVisited is at
most the budget. -/
theorem interpretLoop_complete_le (mode : Bool) (f : Func) :
    ∀ (fuel : Nat) (e : FastState) (prev : Option String) (cur : Block)
      (state : FastState) (steps : List BlockStep) (bv ms : Nat) (c : FastCall),
      interpretLoop mode f e prev cur state steps bv ms fuel = Except.ok c →
      c.earlyExit = false → c.blocksVisited ≤ ms := by
  intro fuel
  induction fuel with
  | zero =>
      intro e prev cur state steps bv ms c h
      simp [interpretLoop] at h
  | succ n ih =>
      intro e prev cur state steps bv ms c h hee
      simp only [interpretLoop] at h
      cases hb : interpretBlockF mode f cur prev state (u32sub ms bv) n with
      | error er => rw [hb] at h; simp at h
      | ok r =>
          rw [hb] at h
          simp only [ebind_ok] at h
          by_cases hcond : (u32add bv r.1.blocksVisited > ms || r.1.earlyExit) = true
          · rw [if_pos hcond] at h
            simp only [Except.ok.injEq] at h
            subst h
            simp [FastCall.earlyExit] at hee
          · rw [if_neg hcond] at h
            have hle : u32add bv r.1.blocksVisited ≤ ms := by
              rcases Bool.or_eq_false_iff.mp (Bool.not_eq_true _ |>.mp hcond) with ⟨h1, _⟩
              simpa using h1
            cases hn : r.1.nextBlock with
            | none =>
                rw [hn] at h
                simp only [Except.ok.injEq] at h
                subst h
                exact hle
            | some nb =>
                rw [hn] at h
                simp only [] at h
                cases hl : lookupBlock f nb with
                | none => rw [hl] at h; simp at h
                | some blk2 =>
                    rw [hl] at h
                    exact ih e (some cur.name) blk2 r.2 _ _ ms c h hee

/-- Shape of the reference (budget-free) interpretation: it never signals
early exit, and its visit counters grow monotonically (every function run
visits at least one block). -/
theorem free_shape (mode : Bool) (f : Func) :
    ∀ fuel : Nat,
      (∀ e c, freeFunction mode f e fuel = Except.ok c →
          c.earlyExit = false ∧ 1 ≤ c.blocksVisited) ∧
      (∀ term instrs step state bv calls out,
          freeInstrGo mode f term instrs step state bv calls fuel = Except.ok out →
          out.1.earlyExit = false ∧ bv ≤ out.1.blocksVisited) ∧
      (∀ blk prev state out, freeBlockF mode f blk prev state fuel = Except.ok out →
          out.1.earlyExit = false ∧ 1 ≤ out.1.blocksVisited) ∧
      (∀ e prev cur state steps bv c,
          freeLoop mode f e prev cur state steps bv fuel = Except.ok c →
          c.earlyExit = false ∧ bv < c.blocksVisited) := by
  intro fuel
  induction fuel with
  | zero =>
      refine ⟨?_, ?_, ?_, ?_⟩
      · intro e c h; simp [freeFunction] at h
      · intro term instrs step state bv calls out h; simp [freeInstrGo] at h
      · intro blk prev state out h; simp [freeBlockF] at h
      · intro e prev cur state steps bv c h; simp [freeLoop] at h
  | succ n ih =>
      refine ⟨?_, ?_, ?_, ?_⟩
      · intro e c h
        simp only [freeFunction] at h
        cases hlb : lookupBlock f f.entry with
        | none => rw [hlb] at h; simp at h
        | some blk0 =>
            rw [hlb] at h
            simp only [] at h
            have := ih.2.2.2 e none blk0 e [] 0 c h
            exact ⟨this.1, this.2⟩
      · intro term instrs step state bv calls out h
        cases instrs with
        | nil =>
            simp only [freeInstrGo] at h
            cases hr : interpretTerminator mode term state with
            | error e2 => rw [hr] at h; simp at h
            | ok r =>
                rw [hr] at h
                simp only [ebind_ok, Except.ok.injEq] at h
                subst h
                exact ⟨rfl, le_refl bv⟩
        | cons i rest =>
            rcases instr_call_or_noncall i with ⟨id, cn, args, hi⟩ | hi
            · subst hi
              simp only [freeInstrGo] at h
              cases ha : args.mapM (fun a => resolveValue mode a state) with
              | error e2 => rw [ha] at h; simp at h
              | ok argVals =>
                  rw [ha] at h
                  simp only [ebind_ok] at h
                  cases hc : freeFunction mode f
                      ⟨(f.params.zip argVals).map (fun p => (some p.1, p.2)), state.heap⟩ n with
                  | error e2 => rw [hc] at h; simp at h
                  | ok c2 =>
                      rw [hc] at h
                      simp only [ebind_ok] at h
                      cases hg : getVar c2.returnState.vars none with
                      | none => rw [hg] at h; simp at h
                      | some rv =>
                          rw [hg] at h
                          simp only [] at h
                          have hrec := ih.2.1 term rest step _ _ _ out h
                          exact ⟨hrec.1, le_trans (Nat.le_add_right bv c2.blocksVisited) hrec.2⟩
            · rw [freeInstrGo_cons_noncall mode f term i hi rest step state bv calls n] at h
              cases hs : interpretInstruction mode i state with
              | error e2 => rw [hs] at h; simp at h
              | ok s1 =>
                  rw [hs] at h
                  simp only [ebind_ok] at h
                  exact ih.2.1 term rest step s1 bv calls out h
      · intro blk prev state out h
        simp only [freeBlockF] at h
        cases hp : interpretPHIs mode blk.phis prev state with
        | error e2 => rw [hp] at h; simp at h
        | ok s1 =>
            rw [hp] at h
            simp only [ebind_ok] at h
            exact ih.2.1 blk.term blk.instrs s1 s1 1 [] out h
      · intro e prev cur state steps bv c h
        simp only [freeLoop] at h
        cases hb : freeBlockF mode f cur prev state n with
        | error er => rw [hb] at h; simp at h
        | ok r =>
            rw [hb] at h
            simp only [ebind_ok] at h
            have hblk := ih.2.2.1 cur prev state r hb
            cases hn : r.1.nextBlock with
            | none =>
                rw [hn] at h
                simp only [Except.ok.injEq] at h
                subst h
                refine ⟨rfl, ?_⟩
                show bv < bv + r.1.blocksVisited
                omega
            | some nb =>
                rw [hn] at h
                simp only [] at h
                cases hl : lookupBlock f nb with
                | none => rw [hl] at h; simp at h
                | some blk2 =>
                    rw [hl] at h
                    have hrec := ih.2.2.2 e (some cur.name) blk2 r.2 _ _ c h
                    exact ⟨hrec.1, by omega⟩

/-- Value of the uint32 subtraction when no underflow occurs. -/
theorem u32sub_of_le (a b : Nat) (hb : b ≤ a) (ha : a < u32Mod) : u32sub a b = a - b := by
  simp only [u32sub, u32Mod] at *
  omega

/-- Value of the uint32 subtraction when it underflows. -/
theorem u32sub_of_gt (a b : Nat) (hb : a < b) (hblt : b < u32Mod) :
    u32sub a b = u32Mod + a - b := by
  simp only [u32sub, u32Mod] at *
  omega

/-- Value of the uint32 addition when no wraparound occurs. -/
theorem u32add_small (a b : Nat) (h : a + b < u32Mod) : u32add a b = a + b := by
  simp only [u32add, u32Mod] at *
  omega

/-- Simulation between the reference (budget-free) interpretation and the
budgeted interpretation with the same fuel: when the reference run requires
at most the budget, the budgeted run returns the identical record; when it
requires more, the budgeted run returns a record flagged earlyExit (or, for
a single block whose visits all precede any budget check, the same block
result, which the caller then flags). All counts are assumed below 2^32. -/
theorem sim_free_budget (mode : Bool) (f : Func) :
    ∀ fuel : Nat,
      (∀ e B cf, freeFunction mode f e fuel = Except.ok cf →
          cf.blocksVisited < u32Mod → B < u32Mod →
          (cf.blocksVisited ≤ B → interpretFunction mode f e B fuel = Except.ok cf) ∧
          (B < cf.blocksVisited →
            ∃ c, interpretFunction mode f e B fuel = Except.ok c ∧ c.earlyExit = true)) ∧
      (∀ term instrs step state bv calls ms out,
          freeInstrGo mode f term instrs step state bv calls fuel = Except.ok out →
          out.1.blocksVisited < u32Mod → ms < u32Mod →
          (out.1.blocksVisited ≤ ms →
            instrGo mode f term instrs step state bv ms calls fuel = Except.ok out) ∧
          (ms < out.1.blocksVisited →
            (∃ out2, instrGo mode f term instrs step state bv ms calls fuel = Except.ok out2 ∧
              out2.1.earlyExit = true) ∨
            (instrGo mode f term instrs step state bv ms calls fuel = Except.ok out ∧
              out.1.blocksVisited = bv))) ∧
      (∀ blk prev state ms out,
          freeBlockF mode f blk prev state fuel = Except.ok out →
          out.1.blocksVisited < u32Mod → ms < u32Mod →
          (out.1.blocksVisited ≤ ms →
            interpretBlockF mode f blk prev state ms fuel = Except.ok out) ∧
          (ms < out.1.blocksVisited →
            (∃ out2, interpretBlockF mode f blk prev state ms fuel = Except.ok out2 ∧
              out2.1.earlyExit = true) ∨
            interpretBlockF mode f blk prev state ms fuel = Except.ok out)) ∧
      (∀ e prev cur state steps bv B cf,
          freeLoop mode f e prev cur state steps bv fuel = Except.ok cf →
          cf.blocksVisited < u32Mod → B < u32Mod → bv ≤ B →
          (cf.blocksVisited ≤ B →
            interpretLoop mode f e prev cur state steps bv B fuel = Except.ok cf) ∧
          (B < cf.blocksVisited →
            ∃ c, interpretLoop mode f e prev cur state steps bv B fuel = Except.ok c ∧
              c.earlyExit = true)) := by
  intro fuel
  induction fuel with
  | zero =>
      refine ⟨?_, ?_, ?_, ?_⟩
      · intro e B cf h; simp [freeFunction] at h
      · intro term instrs step state bv calls ms out h; simp [freeInstrGo] at h
      · intro blk prev state ms out h; simp [freeBlockF] at h
      · intro e prev cur state steps bv B cf h; simp [freeLoop] at h
  | succ n ih =>
      refine ⟨?_, ?_, ?_, ?_⟩
      · -- function level
        intro e B cf h hcf hB
        simp only [freeFunction] at h
        cases hlb : lookupBlock f f.entry with
        | none => rw [hlb] at h; simp at h
        | some blk0 =>
            rw [hlb] at h
            simp only [] at h
            have hl := ih.2.2.2 e none blk0 e [] 0 B cf h hcf hB (Nat.zero_le B)
            constructor
            · intro hle
              simp only [interpretFunction]
              rw [hlb]
              simp only []
              exact hl.1 hle
            · intro hgt
              obtain ⟨c, hc, hce⟩ := hl.2 hgt
              refine ⟨c, ?_, hce⟩
              simp only [interpretFunction]
              rw [hlb]
              simp only []
              exact hc
      · -- instruction-loop level
        intro term instrs step state bv calls ms out h hout hms
        cases instrs with
        | nil =>
            simp only [freeInstrGo] at h
            cases hr : interpretTerminator mode term state with
            | error e2 => rw [hr] at h; simp at h
            | ok r =>
                rw [hr] at h
                simp only [ebind_ok, Except.ok.injEq] at h
                have hbv : out.1.blocksVisited = bv := by rw [← h]
                constructor
                · intro _
                  simp only [instrGo]
                  rw [hr]
                  simp only [ebind_ok]
                  rw [h]
                · intro _
                  right
                  refine ⟨?_, hbv⟩
                  simp only [instrGo]
                  rw [hr]
                  simp only [ebind_ok]
                  rw [h]
        | cons i rest =>
            rcases instr_call_or_noncall i with ⟨id, cn, args, hi⟩ | hi
            · -- call instruction
              subst hi
              simp only [freeInstrGo] at h
              cases ha : args.mapM (fun a => resolveValue mode a state) with
              | error e2 => rw [ha] at h; simp at h
              | ok argVals =>
                  rw [ha] at h
                  simp only [ebind_ok] at h
                  cases hc : freeFunction mode f
                      ⟨(f.params.zip argVals).map (fun p => (some p.1, p.2)), state.heap⟩ n with
                  | error e2 => rw [hc] at h; simp at h
                  | ok c2 =>
                      rw [hc] at h
                      simp only [ebind_ok] at h
                      cases hg : getVar c2.returnState.vars none with
                      | none => rw [hg] at h; simp at h
                      | some rv =>
                          rw [hg] at h
                          simp only [] at h
                          have hc2shape := (free_shape mode f n).1 _ _ hc
                          have hrecshape := (free_shape mode f n).2.1 _ _ _ _ _ _ _ h
                          have hbv1le : bv + c2.blocksVisited ≤ out.1.blocksVisited := hrecshape.2
                          have hc2lt : c2.blocksVisited < u32Mod := by omega
                          by_cases hbvms : bv ≤ ms
                          · -- budget not yet exceeded before the call
                            have hsub : u32sub ms bv = ms - bv := u32sub_of_le ms bv hbvms hms
                            by_cases hfits : c2.blocksVisited ≤ ms - bv
                            · -- the callee fits in the remaining budget
                              have hbud := ((ih.1) _ (ms - bv) c2 hc hc2lt (by omega)).1 hfits
                              have hadd : u32add bv c2.blocksVisited = bv + c2.blocksVisited :=
                                u32add_small bv c2.blocksVisited (by omega)
                              have hcond : ¬((decide (u32add bv c2.blocksVisited > ms)
                                  || c2.earlyExit) = true) := by
                                rw [hc2shape.1, hadd]
                                simp only [Bool.or_false, decide_eq_true_eq]
                                omega
                              have hrec := ih.2.1 term rest step
                                ⟨setVar state.vars (some id) rv, c2.returnState.heap⟩
                                (bv + c2.blocksVisited) (calls ++ [c2]) ms out h hout hms
                              have hunfold : instrGo mode f term (Instr.call id cn args :: rest)
                                  step state bv ms calls (n + 1)
                                  = instrGo mode f term rest step
                                    ⟨setVar state.vars (some id) rv, c2.returnState.heap⟩
                                    (u32add bv c2.blocksVisited) ms (calls ++ [c2]) n := by
                                simp only [instrGo]
                                rw [ha]
                                simp only [ebind_ok]
                                rw [hsub, hbud]
                                simp only [ebind_ok]
                                rw [if_neg hcond, hg]
                              constructor
                              · intro hle
                                rw [hunfold, hadd]
                                exact hrec.1 hle
                              · intro hgt
                                rcases hrec.2 hgt with ⟨out2, ho2, he2⟩ | ⟨ho, hbv⟩
                                · left
                                  refine ⟨out2, ?_, he2⟩
                                  rw [hunfold, hadd]
                                  exact ho2
                                · exfalso
                                  omega
                            · -- the callee needs more than the remaining budget
                              have hgt2 : ms - bv < c2.blocksVisited := by omega
                              obtain ⟨c3, hc3, hc3e⟩ :=
                                ((ih.1) _ (ms - bv) c2 hc hc2lt (by omega)).2 hgt2
                              have hcond : ((decide (u32add bv c3.blocksVisited > ms)
                                  || c3.earlyExit) = true) := by
                                rw [hc3e]
                                simp
                              have hmsout : ms < out.1.blocksVisited := by omega
                              have hunfold : instrGo mode f term (Instr.call id cn args :: rest)
                                  step state bv ms calls (n + 1)
                                  = Except.ok (BlockUpdate.mk step none calls true
                                      (u32add bv c3.blocksVisited), state) := by
                                simp only [instrGo]
                                rw [ha]
                                simp only [ebind_ok]
                                rw [hsub, hc3]
                                simp only [ebind_ok]
                                rw [if_pos hcond]
                              constructor
                              · intro hle
                                omega
                              · intro _
                                left
                                exact ⟨_, hunfold, rfl⟩
                          · -- the budget was already exceeded when the call runs
                            have hbvgt : ms < bv := by omega
                            have hbvlt : bv < u32Mod := by omega
                            have hsub : u32sub ms bv = u32Mod + ms - bv :=
                              u32sub_of_gt ms bv hbvgt hbvlt
                            have hfits : c2.blocksVisited ≤ u32Mod + ms - bv := by omega
                            have hbud := ((ih.1) _ (u32Mod + ms - bv) c2 hc hc2lt (by omega)).1 hfits
                            have hadd : u32add bv c2.blocksVisited = bv + c2.blocksVisited :=
                              u32add_small bv c2.blocksVisited (by omega)
                            have hcond : ((decide (u32add bv c2.blocksVisited > ms)
                                || c2.earlyExit) = true) := by
                              rw [hadd]
                              have : ms < bv + c2.blocksVisited := by omega
                              simp [this]
                            have hunfold : instrGo mode f term (Instr.call id cn args :: rest)
                                step state bv ms calls (n + 1)
                                = Except.ok (BlockUpdate.mk step none calls true
                                    (u32add bv c2.blocksVisited), state) := by
                              simp only [instrGo]
                              rw [ha]
                              simp only [ebind_ok]
                              rw [hsub, hbud]
                              simp only [ebind_ok]
                              rw [if_pos hcond]
                            constructor
                            · intro hle
                              omega
                            · intro _
                              left
                              exact ⟨_, hunfold, rfl⟩
            · -- ordinary instruction
              rw [freeInstrGo_cons_noncall mode f term i hi rest step state bv calls n] at h
              cases hs : interpretInstruction mode i state with
              | error e2 => rw [hs] at h; simp at h
              | ok s1 =>
                  rw [hs] at h
                  simp only [ebind_ok] at h
                  have hrec := ih.2.1 term rest step s1 bv calls ms out h hout hms
                  have hunfold : ∀ z, instrGo mode f term rest step s1 bv ms calls n = z →
                      instrGo mode f term (i :: rest) step state bv ms calls (n + 1) = z := by
                    intro z hz
                    rw [instrGo_cons_noncall mode f term i hi rest step state bv ms calls n, hs]
                    simpa using hz
                  constructor
                  · intro hle
                    exact hunfold _ (hrec.1 hle)
                  · intro hgt
                    rcases hrec.2 hgt with ⟨out2, ho2, he2⟩ | ⟨ho, hbv⟩
                    · exact Or.inl ⟨out2, hunfold _ ho2, he2⟩
                    · exact Or.inr ⟨hunfold _ ho, hbv⟩
      · -- block level
        intro blk prev state ms out h hout hms
        simp only [freeBlockF] at h
        cases hp : interpretPHIs mode blk.phis prev state with
        | error e2 => rw [hp] at h; simp at h
        | ok s1 =>
            rw [hp] at h
            simp only [ebind_ok] at h
            have hrec := ih.2.1 blk.term blk.instrs s1 s1 1 [] ms out h hout hms
            have hunfold : ∀ z, instrGo mode f blk.term blk.instrs s1 s1 1 ms [] n = z →
                interpretBlockF mode f blk prev state ms (n + 1) = z := by
              intro z hz
              simp only [interpretBlockF]
              rw [hp]
              simpa using hz
            constructor
            · intro hle
              exact hunfold _ (hrec.1 hle)
            · intro hgt
              rcases hrec.2 hgt with ⟨out2, ho2, he2⟩ | ⟨ho, _⟩
              · exact Or.inl ⟨out2, hunfold _ ho2, he2⟩
              · exact Or.inr (hunfold _ ho)
      · -- loop level
        intro e prev cur state steps bv B cf h hcf hB hbvB
        simp only [freeLoop] at h
        cases hb : freeBlockF mode f cur prev state n with
        | error er => rw [hb] at h; simp at h
        | ok r =>
            rw [hb] at h
            simp only [ebind_ok] at h
            have hbshape := (free_shape mode f n).2.2.1 cur prev state r hb
            have hloopmono : bv + r.1.blocksVisited ≤ cf.blocksVisited := by
              cases hn : r.1.nextBlock with
              | none =>
                  rw [hn] at h
                  simp only [Except.ok.injEq] at h
                  subst h
                  exact Nat.le_refl _
              | some nb =>
                  rw [hn] at h
                  simp only [] at h
                  cases hl : lookupBlock f nb with
                  | none => rw [hl] at h; simp at h
                  | some blk2 =>
                      rw [hl] at h
                      have := (free_shape mode f n).2.2.2 e (some cur.name) blk2 r.2 _ _ cf h
                      omega
            have hrlt : r.1.blocksVisited < u32Mod := by omega
            have hsub : u32sub B bv = B - bv := u32sub_of_le B bv hbvB hB
            by_cases hfits : r.1.blocksVisited ≤ B - bv
            · -- this block fits in the remaining budget
              have hbud := (ih.2.2.1 cur prev state (B - bv) r hb hrlt (by omega)).1 hfits
              have hadd : u32add bv r.1.blocksVisited = bv + r.1.blocksVisited :=
                u32add_small bv r.1.blocksVisited (by omega)
              have hcond : ¬((decide (u32add bv r.1.blocksVisited > B)
                  || r.1.earlyExit) = true) := by
                rw [hbshape.1, hadd]
                simp only [Bool.or_false, decide_eq_true_eq]
                omega
              have hunfold : ∀ z,
                  (match r.1.nextBlock with
                    | none => Except.ok (FastCall.mk f.name e r.2
                        (steps ++ [BlockStep.mk cur.name r.1.step r.1.calls]) false
                        (u32add bv r.1.blocksVisited))
                    | some nb =>
                        match lookupBlock f nb with
                        | none => Except.error IError.unboundValue
                        | some blk2 => interpretLoop mode f e (some cur.name) blk2 r.2
                            (steps ++ [BlockStep.mk cur.name r.1.step r.1.calls])
                            (u32add bv r.1.blocksVisited) B n) = z →
                  interpretLoop mode f e prev cur state steps bv B (n + 1) = z := by
                intro z hz
                simp only [interpretLoop]
                rw [hsub, hbud]
                simp only [ebind_ok]
                rw [if_neg hcond]
                exact hz
              cases hn : r.1.nextBlock with
              | none =>
                  rw [hn] at h
                  simp only [Except.ok.injEq] at h
                  subst h
                  constructor
                  · intro hle
                    refine hunfold _ ?_
                    rw [hn, hadd]
                  · intro hgt
                    simp only [FastCall.blocksVisited] at hgt
                    omega
              | some nb =>
                  rw [hn] at h
                  simp only [] at h
                  cases hl : lookupBlock f nb with
                  | none => rw [hl] at h; simp at h
                  | some blk2 =>
                      rw [hl] at h
                      have hrec := ih.2.2.2 e (some cur.name) blk2 r.2
                        (steps ++ [BlockStep.mk cur.name r.1.step r.1.calls])
                        (bv + r.1.blocksVisited) B cf h hcf hB (by omega)
                      constructor
                      · intro hle
                        refine hunfold _ ?_
                        rw [hn]
                        simp only []
                        rw [hl, hadd]
                        exact hrec.1 hle
                      · intro hgt
                        obtain ⟨c, hcr, hce⟩ := hrec.2 hgt
                        refine ⟨c, hunfold _ ?_, hce⟩
                        rw [hn]
                        simp only []
                        rw [hl, hadd]
                        exact hcr
            · -- this block already exceeds the remaining budget
              have hgtB : B < bv + r.1.blocksVisited := by omega
              have hgtcf : B < cf.blocksVisited := by omega
              refine ⟨fun hle => by omega, fun _ => ?_⟩
              rcases (ih.2.2.1 cur prev state (B - bv) r hb hrlt (by omega)).2 (by omega)
                with ⟨out2, ho2, he2⟩ | ho
              · -- the block itself signalled early exit
                have hcond : ((decide (u32add bv out2.1.blocksVisited > B)
                    || out2.1.earlyExit) = true) := by
                  rw [he2]
                  simp
                refine ⟨FastCall.mk f.name e out2.2
                    (steps ++ [BlockStep.mk cur.name out2.1.step out2.1.calls]) true
                    (u32add bv out2.1.blocksVisited), ?_, rfl⟩
                simp only [interpretLoop]
                rw [hsub, ho2]
                simp only [ebind_ok]
                rw [if_pos hcond]
              · -- the block completed, and the loop check trips
                have hadd : u32add bv r.1.blocksVisited = bv + r.1.blocksVisited :=
                  u32add_small bv r.1.blocksVisited (by omega)
                have hcond : ((decide (u32add bv r.1.blocksVisited > B)
                    || r.1.earlyExit) = true) := by
                  rw [hadd]
                  have : B < bv + r.1.blocksVisited := hgtB
                  simp [this]
                refine ⟨FastCall.mk f.name e r.2
                    (steps ++ [BlockStep.mk cur.name r.1.step r.1.calls]) true
                    (u32add bv r.1.blocksVisited), ?_, rfl⟩
                simp only [interpretLoop]
                rw [hsub, ho]
                simp only [ebind_ok]
                rw [if_pos hcond]

/-- C2 counterexample: the claim states that the reported blocksVisited
never exceeds the budget B. With budget 0, interpreting the one-block
function fOne reports blocksVisited = 1 > 0 (the entry block is visited and
counted before the budget check runs). -/
theorem claim_C2_counterexample_blocksVisited_exceeds_budget :
    ((interpretFunction false fOne stEmpty 0 100).map
        (fun c => (c.blocksVisited, c.earlyExit)))
      = Except.ok (1, true) ∧ (0 : Nat) < 1 := by
  exact ⟨rfl, by decide⟩

/-- C2 amended: (1) whenever a run completes with earlyExit = false its
blocksVisited is at most the budget B (on early exits the count may exceed
B); (2) earlyExit is true exactly when the full call tree requires more than
B block visits, where the requirement is the blocksVisited of the
budget-free reference run (stated for runs whose reference total and budget
are below 2^32). -/
theorem claim_C2_amended_budget_discipline :
    (∀ (mode : Bool) (f : Func) (e : FastState) (B fuel : Nat) (c : FastCall),
        interpretFunction mode f e B fuel = Except.ok c → c.earlyExit = false →
        c.blocksVisited ≤ B) ∧
    (∀ (mode : Bool) (f : Func) (e : FastState) (B fuel : Nat) (cf : FastCall),
        freeFunction mode f e fuel = Except.ok cf →
        cf.blocksVisited < u32Mod → B < u32Mod →
        ∃ c, interpretFunction mode f e B fuel = Except.ok c ∧
          (c.earlyExit = true ↔ B < cf.blocksVisited)) := by
  constructor
  · intro mode f e B fuel c h hee
    cases fuel with
    | zero => simp [interpretFunction] at h
    | succ n =>
        simp only [interpretFunction] at h
        cases hlb : lookupBlock f f.entry with
        | none => rw [hlb] at h; simp at h
        | some blk0 =>
            rw [hlb] at h
            simp only [] at h
            exact interpretLoop_complete_le mode f n e none blk0 e [] 0 B c h hee
  · intro mode f e B fuel cf h hcf hB
    by_cases hle : cf.blocksVisited ≤ B
    · refine ⟨cf, ((sim_free_budget mode f fuel).1 e B cf h hcf hB).1 hle, ?_⟩
      rw [((free_shape mode f fuel).1 e cf h).1]
      constructor
      · intro hfalse
        cases hfalse
      · intro hlt
        omega
    · obtain ⟨c, hc, hce⟩ := ((sim_free_budget mode f fuel).1 e B cf h hcf hB).2 (by omega)
      refine ⟨c, hc, ?_⟩
      rw [hce]
      constructor
      · intro _
        omega
      · intro _
        rfl

/-- C2 witness: the amended theorem applied to the one-block function fOne:
its completed run with budget 5 respects the budget, and with budget 3 the
budgeted run agrees with the reference run (1 visit) and does not exit
early. -/
theorem claim_C2_amended_witness :
    cOne5.blocksVisited ≤ 5 ∧
    (∃ c, interpretFunction false fOne stEmpty 3 100 = Except.ok c ∧
      (c.earlyExit = true ↔ 3 < cOne5.blocksVisited)) :=
  ⟨claim_C2_amended_budget_discipline.1 false fOne stEmpty 5 100 cOne5 rfl rfl,
   claim_C2_amended_budget_discipline.2 false fOne stEmpty 3 100 cOne5 rfl
     (by decide) (by decide)⟩

/-- Parsing a digit character produced by Nat.digitChar. -/
theorem decDigit_digitChar : ∀ d : Nat, d < 10 → decDigit? (Nat.digitChar d) = some d := by
  decide

/-- Digit characters are not the minus sign. -/
theorem digitChar_ne_minus : ∀ d : Nat, d < 10 → Nat.digitChar d ≠ Char.ofNat 45 := by
  decide

/-- The minus sign character is Char.ofNat 45. -/
theorem minus_char_eq : Char.ofNat 45 = Char.ofNat 45 := rfl

/-- Decimal parsing distributes over list append. -/
theorem parseNatGo_append (xs ys : List Char) :
    ∀ acc, parseNatGo acc (xs ++ ys)
      = match parseNatGo acc xs with
        | some a => parseNatGo a ys
        | none => none := by
  induction xs with
  | nil => intro acc; rfl
  | cons c cs ih =>
      intro acc
      simp only [List.cons_append, parseNatGo]
      cases hd : decDigit? c with
      | some d => exact ih (acc * 10 + d)
      | none => rfl

/-- Parsing the reversed digit-character list of a digit list. -/
theorem parseNatGo_digits (ds : List Nat) (hds : ∀ d ∈ ds, d < 10) :
    ∀ acc, parseNatGo acc ((ds.map Nat.digitChar).reverse)
      = some (acc * 10 ^ ds.length + Nat.ofDigits 10 ds) := by
  induction ds with
  | nil =>
      intro acc
      simp [parseNatGo, Nat.ofDigits]
  | cons d tail ih =>
      intro acc
      have hd : d < 10 := hds d (List.mem_cons_self d tail)
      have htail : ∀ x ∈ tail, x < 10 := fun x hx => hds x (List.mem_cons_of_mem d hx)
      simp only [List.map_cons, List.reverse_cons, parseNatGo_append, ih htail acc]
      simp only [parseNatGo, decDigit_digitChar d hd]
      rw [Nat.ofDigits_cons]
      congr 1
      simp only [List.length_cons, pow_succ]
      ring

/-- Parsing the decimal character rendering of a positive natural number. -/
theorem parseNatChars_decChars (n : Nat) (hn : n ≠ 0) :
    parseNatChars (natDecChars n) = some n := by
  have hne : natDecChars n ≠ [] := by
    simp [natDecChars, Nat.digits_ne_nil_iff_ne_zero, hn]
  have hds : ∀ d ∈ Nat.digits 10 n, d < 10 :=
    fun d hd => Nat.digits_lt_base (by norm_num) hd
  cases hcs : natDecChars n with
  | nil => exact absurd hcs hne
  | cons c cs =>
      have : parseNatChars (c :: cs) = parseNatGo 0 (c :: cs) := rfl
      rw [this, ← hcs]
      show parseNatGo 0 ((Nat.digits 10 n).map Nat.digitChar).reverse = some n
      rw [parseNatGo_digits (Nat.digits 10 n) hds 0]
      simp [Nat.ofDigits_digits]

/-- Every character of a decimal rendering is a digit, never a minus sign. -/
theorem natDecChars_no_minus (n : Nat) :
    ∀ c ∈ natDecChars n, c ≠ Char.ofNat 45 := by
  intro c hc
  simp only [natDecChars, List.mem_reverse, List.mem_map] at hc
  obtain ⟨d, hd, rfl⟩ := hc
  exact digitChar_ne_minus d (Nat.digits_lt_base (by norm_num) hd)

/-- Round trip of the sign-magnitude decimal encoding: parsing the rendered
text of an Integer returns its numeric value. -/
theorem parseDec_get_str (i : Integer) : parseDec (Integer.get_str i) = some i.ival := by
  unfold Integer.get_str
  set v := i.ival with hv
  by_cases hneg : v < 0
  · rw [if_pos hneg]
    have hn : v.natAbs ≠ 0 := by
      intro h0
      omega
    have hdata : ("-" ++ natDecString v.natAbs).data
        = Char.ofNat 45 :: (natDecString v.natAbs).data := by
      rfl
    unfold parseDec
    rw [hdata]
    simp only [if_pos rfl]
    have hparse : parseNatChars (natDecString v.natAbs).data = some v.natAbs := by
      unfold natDecString
      rw [if_neg hn]
      exact parseNatChars_decChars v.natAbs hn
    rw [hparse]
    have habs : -((v.natAbs : Nat) : Int) = v := by omega
    simp [habs]
    rw [abs_of_neg hneg, neg_neg]
  · rw [if_neg hneg]
    by_cases h0 : v.natAbs = 0
    · have hv0 : v = 0 := by omega
      unfold parseDec natDecString
      rw [h0, if_pos rfl]
      rw [hv0]
      rfl
    · unfold parseDec natDecString
      rw [if_neg h0]
      have hdata : (String.mk (natDecChars v.natAbs)).data = natDecChars v.natAbs := rfl
      rw [hdata]
      cases hcs : natDecChars v.natAbs with
      | nil =>
          exfalso
          have : natDecChars v.natAbs ≠ [] := by
            simp [natDecChars, Nat.digits_ne_nil_iff_ne_zero, h0]
          exact this hcs
      | cons c cs =>
          have hcne : ¬(c = Char.ofNat 45) :=
            natDecChars_no_minus v.natAbs c (by rw [hcs]; exact List.mem_cons_self c cs)
          simp only []
          rw [if_neg hcne]
          rw [← hcs, parseNatChars_decChars v.natAbs h0]
          have habs2 : ((v.natAbs : Nat) : Int) = v := by omega
          simp [habs2]

/-- Typed-value equality between a value and its wire-normalized image. -/
theorem varValEq_normVal (v : VarVal) : varValEq v (normVal v) = true := by
  cases v with
  | int i => simp [varValEq, normVal, Integer.ieq, Integer.ival]
  | bool b => simp [varValEq, normVal]

/-- Decoding of an encoded typed value. -/
theorem cborToVarVal_enc (v : VarVal) :
    cborToVarVal (varValToCBOR v) = Except.ok (some (normVal v)) := by
  cases v with
  | int i => simp [varValToCBOR, cborToVarVal, parseDec_get_str, normVal]
  | bool b => rfl

/-- Absence of a key from a string-keyed map. -/
theorem find_none_of_not_mem {α : Type} (l : List (String × α)) (k : String)
    (h : k ∉ l.map Prod.fst) : (l.find? (fun p => p.1 = k)).isSome = false := by
  induction l with
  | nil => rfl
  | cons p rest ih =>
      simp only [List.map_cons, List.mem_cons] at h
      push_neg at h
      have : ¬(p.1 = k) := fun hc => h.1 hc.symm
      simp only [List.find?, this, decide_eq_true_eq]
      simpa [this] using ih h.2

/-- Absence of an address from the heap by numeric value. -/
theorem heapGet_none_of_not_mem (l : Heap) (k : Integer)
    (h : k.ival ∉ l.map (fun p => p.1.ival)) : heapGet l k = none := by
  induction l with
  | nil => rfl
  | cons p rest ih =>
      simp only [List.map_cons, List.mem_cons] at h
      push_neg at h
      have : Integer.ieq p.1 k = false := by
        simp [Integer.ieq]
        intro hc
        exact h.1 hc.symm
      simp only [heapGet, this]
      simpa using ih h.2

/-- Decoding of an encoded variables map with pairwise distinct names. -/
theorem cborToVarMapGo_enc (nm : Nat → String) :
    ∀ (vars : List (Option Nat × VarVal)) (acc : List (String × VarVal)),
      ((acc.map Prod.fst) ++ vars.map (fun p => valueName nm p.1)).Nodup →
      cborToVarMapGo
          (vars.map (fun p => (CBOR.stringItem (valueName nm p.1), varValToCBOR p.2))) acc
        = Except.ok (acc ++ vars.map (fun p => (valueName nm p.1, normVal p.2))) := by
  intro vars
  induction vars with
  | nil =>
      intro acc _
      simp [cborToVarMapGo]
  | cons p rest ih =>
      intro acc hnd
      simp only [List.map_cons, cborToVarMapGo, cborToString, ebind_ok,
        cborToVarVal_enc p.2]
      have hnotmem : valueName nm p.1 ∉ acc.map Prod.fst := by
        simp only [List.map_cons, List.nodup_append] at hnd
        intro hmem
        exact hnd.2.2 hmem (List.mem_cons_self _ _)
      have hins : insertIfAbsent acc (valueName nm p.1) (normVal p.2)
          = acc ++ [(valueName nm p.1, normVal p.2)] := by
        unfold insertIfAbsent
        rw [find_none_of_not_mem acc _ hnotmem]
        simp
      rw [hins]
      have hnd2 : (((acc ++ [(valueName nm p.1, normVal p.2)]).map Prod.fst)
          ++ rest.map (fun p => valueName nm p.1)).Nodup := by
        simp only [List.map_append, List.map_cons, List.map_nil, List.append_assoc,
          List.singleton_append]
        simpa only [List.map_cons, List.append_assoc, List.cons_append,
          List.singleton_append] using hnd
      rw [ih (acc ++ [(valueName nm p.1, normVal p.2)]) hnd2]
      simp

/-- Decoding of an encoded heap map with pairwise distinct addresses. -/
theorem cborToHeapGo_enc :
    ∀ (h : Heap) (acc : Heap),
      ((acc.map (fun p => p.1.ival)) ++ h.map (fun p => p.1.ival)).Nodup →
      cborToHeapGo
          (h.map (fun p => (CBOR.stringItem (Integer.get_str p.1),
            CBOR.stringItem (Integer.get_str p.2)))) acc
        = Except.ok (acc ++ h.map (fun p =>
            (Integer.unbounded p.1.ival, Integer.unbounded p.2.ival))) := by
  intro h
  induction h with
  | nil =>
      intro acc _
      simp [cborToHeapGo]
  | cons p rest ih =>
      intro acc hnd
      have hval : cborToVarIntVal (CBOR.stringItem (Integer.get_str p.2))
          = Except.ok (Integer.unbounded p.2.ival) := by
        simp [cborToVarIntVal, cborToString, parseDec_get_str]
      simp only [List.map_cons, cborToHeapGo, cborToString, ebind_ok,
        parseDec_get_str, hval]
      have hnotmem : p.1.ival ∉ acc.map (fun q => q.1.ival) := by
        simp only [List.map_cons, List.nodup_append] at hnd
        intro hmem
        exact hnd.2.2 hmem (List.mem_cons_self _ _)
      have habs : heapGet acc (Integer.unbounded p.1.ival) = none := by
        refine heapGet_none_of_not_mem acc _ ?_
        simpa [Integer.ival] using hnotmem
      have hins : insertIfAbsentH acc (Integer.unbounded p.1.ival) (Integer.unbounded p.2.ival)
          = acc ++ [(Integer.unbounded p.1.ival, Integer.unbounded p.2.ival)] := by
        unfold insertIfAbsentH
        rw [habs]
        simp
      rw [hins]
      have hnd2 : (((acc ++ [(Integer.unbounded p.1.ival, Integer.unbounded p.2.ival)]).map
          (fun q => q.1.ival)) ++ rest.map (fun q => q.1.ival)).Nodup := by
        simp only [List.map_append, List.map_cons, List.map_nil, List.append_assoc,
          List.singleton_append]
        simpa only [List.map_cons, List.append_assoc, List.cons_append,
          List.singleton_append, Integer.ival] using hnd
      rw [ih (acc ++ [(Integer.unbounded p.1.ival, Integer.unbounded p.2.ival)]) hnd2]
      simp

/-- Decoding of an encoded state with good naming. -/
theorem cborToState_enc (nm : Nat → String) (s : FastState) (hg : goodState nm s) :
    cborToState (stateToCBOR nm s) = Except.ok (renameState nm s) := by
  unfold stateToCBOR cborToState
  simp only []
  rw [cborToVarMapGo_enc nm s.vars [] (by simpa using hg.1)]
  simp only [ebind_ok]
  rw [cborToHeapGo_enc s.heap [] (by simpa using hg.2)]
  simp [renameState]

/-- Key map built from the six entries of an encoded call record. -/
theorem keymap6 (a b c d e f : CBOR) :
    cborToKeyMapGo
      [(CBOR.stringItem "function_name", a), (CBOR.stringItem "entry_state", b),
       (CBOR.stringItem "return_state", c), (CBOR.stringItem "steps", d),
       (CBOR.stringItem "early_exit", e), (CBOR.stringItem "blocks_visited", f)] []
    = Except.ok [("function_name", a), ("entry_state", b), ("return_state", c),
        ("steps", d), ("early_exit", e), ("blocks_visited", f)] := rfl

/-- Key map built from the three entries of an encoded block step. -/
theorem keymap3 (a b c : CBOR) :
    cborToKeyMapGo
      [(CBOR.stringItem "block_name", a), (CBOR.stringItem "state", b),
       (CBOR.stringItem "calls", c)] []
    = Except.ok [("block_name", a), ("state", b), ("calls", c)] := rfl

/-- Round trip of the call-record codec: decoding the encoding of a
well-named call record yields its decoded image, with enough fuel for its
nesting rank. -/
theorem cbor_roundtrip (nm : Nat → String) :
    ∀ fuel : Nat,
      (∀ c : FastCall, goodCall nm c → crank c ≤ fuel →
          cborToCall (callToCBOR nm c) fuel = Except.ok (renameCall nm c)) ∧
      (∀ s : BlockStep, goodStep nm s → srank s ≤ fuel →
          cborToBlockStep (stepToCBOR nm s) fuel = Except.ok (renameStep nm s)) := by
  intro fuel
  induction fuel with
  | zero =>
      constructor
      · intro c hg hr
        cases c
        simp [crank] at hr
      · intro s hg hr
        cases s
        simp [srank] at hr
  | succ n ih =>
      constructor
      · intro c hg hr
        cases c with
        | mk fn es rs steps ee bv =>
            obtain ⟨hges, hgrs, hgsteps⟩ := hg
            have hrs2 : srankList steps ≤ n := by
              simp only [crank] at hr
              omega
            have hsteps : ∀ l, goodSteps nm l → srankList l ≤ n →
                cborToStepList n (stepListToCBOR nm l) = Except.ok (renameSteps nm l) := by
              intro l
              induction l with
              | nil =>
                  intro _ _
                  simp [stepListToCBOR, cborToStepList, renameSteps]
              | cons s rest ihl =>
                  intro hgl hrl
                  simp only [srankList, max_le_iff] at hrl
                  simp only [stepListToCBOR, cborToStepList]
                  rw [ih.2 s hgl.1 hrl.1]
                  simp only [ebind_ok]
                  rw [ihl hgl.2 hrl.2]
                  simp [renameSteps]
            simp only [callToCBOR, cborToCall]
            rw [if_pos (by rfl)]
            rw [keymap6]
            simp only [ebind_ok]
            have h1 : (lookupKey [("function_name", CBOR.stringItem fn),
                ("entry_state", stateToCBOR nm es), ("return_state", stateToCBOR nm rs),
                ("steps", CBOR.arrayItem (stepListToCBOR nm steps)),
                ("early_exit", CBOR.boolItem ee), ("blocks_visited", CBOR.uintItem bv)]
                  "function_name" >>= cborToString) = Except.ok fn := rfl
            have h2 : (lookupKey [("function_name", CBOR.stringItem fn),
                ("entry_state", stateToCBOR nm es), ("return_state", stateToCBOR nm rs),
                ("steps", CBOR.arrayItem (stepListToCBOR nm steps)),
                ("early_exit", CBOR.boolItem ee), ("blocks_visited", CBOR.uintItem bv)]
                  "entry_state" >>= cborToState) = cborToState (stateToCBOR nm es) := rfl
            have h3 : (lookupKey [("function_name", CBOR.stringItem fn),
                ("entry_state", stateToCBOR nm es), ("return_state", stateToCBOR nm rs),
                ("steps", CBOR.arrayItem (stepListToCBOR nm steps)),
                ("early_exit", CBOR.boolItem ee), ("blocks_visited", CBOR.uintItem bv)]
                  "return_state" >>= cborToState) = cborToState (stateToCBOR nm rs) := rfl
            have h4 : lookupKey [("function_name", CBOR.stringItem fn),
                ("entry_state", stateToCBOR nm es), ("return_state", stateToCBOR nm rs),
                ("steps", CBOR.arrayItem (stepListToCBOR nm steps)),
                ("early_exit", CBOR.boolItem ee), ("blocks_visited", CBOR.uintItem bv)]
                  "steps" = Except.ok (CBOR.arrayItem (stepListToCBOR nm steps)) := rfl
            have h5 : (lookupKey [("function_name", CBOR.stringItem fn),
                ("entry_state", stateToCBOR nm es), ("return_state", stateToCBOR nm rs),
                ("steps", CBOR.arrayItem (stepListToCBOR nm steps)),
                ("early_exit", CBOR.boolItem ee), ("blocks_visited", CBOR.uintItem bv)]
                  "early_exit" >>= cborGetBool) = Except.ok ee := rfl
            have h6 : (lookupKey [("function_name", CBOR.stringItem fn),
                ("entry_state", stateToCBOR nm es), ("return_state", stateToCBOR nm rs),
                ("steps", CBOR.arrayItem (stepListToCBOR nm steps)),
                ("early_exit", CBOR.boolItem ee), ("blocks_visited", CBOR.uintItem bv)]
                  "blocks_visited" >>= cborGetUint32) = Except.ok bv := rfl
            rw [h1]
            simp only [ebind_ok]
            rw [h2, cborToState_enc nm es hges]
            simp only [ebind_ok]
            rw [h3, cborToState_enc nm rs hgrs]
            simp only [ebind_ok]
            rw [h4]
            simp only [ebind_ok]
            rw [hsteps steps hgsteps hrs2]
            simp only [ebind_ok]
            rw [h5]
            simp only [ebind_ok]
            rw [h6]
            simp only [ebind_ok]
            rfl
      · intro s hg hr
        cases s with
        | mk bn st calls =>
            obtain ⟨hgst, hgcalls⟩ := hg
            have hrc : crankList calls ≤ n := by
              simp only [srank] at hr
              omega
            have hcalls : ∀ l, goodCalls nm l → crankList l ≤ n →
                cborToCallList n (callListToCBOR nm l) = Except.ok (renameCalls nm l) := by
              intro l
              induction l with
              | nil =>
                  intro _ _
                  simp [callListToCBOR, cborToCallList, renameCalls]
              | cons c rest ihl =>
                  intro hgl hrl
                  simp only [crankList, max_le_iff] at hrl
                  simp only [callListToCBOR, cborToCallList]
                  rw [ih.1 c hgl.1 hrl.1]
                  simp only [ebind_ok]
                  rw [ihl hgl.2 hrl.2]
                  simp [renameCalls]
            simp only [stepToCBOR, cborToBlockStep]
            rw [if_pos (by rfl)]
            rw [keymap3]
            simp only [ebind_ok]
            have h1 : (lookupKey [("block_name", CBOR.stringItem bn),
                ("state", stateToCBOR nm st),
                ("calls", CBOR.arrayItem (callListToCBOR nm calls))]
                  "block_name" >>= cborToString) = Except.ok bn := rfl
            have h2 : (lookupKey [("block_name", CBOR.stringItem bn),
                ("state", stateToCBOR nm st),
                ("calls", CBOR.arrayItem (callListToCBOR nm calls))]
                  "state" >>= cborToState) = cborToState (stateToCBOR nm st) := rfl
            have h3 : lookupKey [("block_name", CBOR.stringItem bn),
                ("state", stateToCBOR nm st),
                ("calls", CBOR.arrayItem (callListToCBOR nm calls))]
                  "calls" = Except.ok (CBOR.arrayItem (callListToCBOR nm calls)) := rfl
            rw [h1]
            simp only [ebind_ok]
            rw [h2, cborToState_enc nm st hgst]
            simp only [ebind_ok]
            rw [h3]
            simp only [ebind_ok]
            rw [hcalls calls hgcalls hrc]
            simp only [ebind_ok]
            rfl

/-- A map under a pointwise-related function is Forall2-related to the
original list. -/
theorem forall2_map {A B : Type} (f : A → B) (R : A → B → Prop)
    (h : ∀ a : A, R a (f a)) : ∀ l : List A, List.Forall₂ R l (l.map f) := by
  intro l
  induction l with
  | nil => exact List.Forall₂.nil
  | cons a rest ih => exact List.Forall₂.cons (h a) ih

/-- An Integer equals the unbounded integer carrying its numeric value. -/
theorem ieq_unbounded (i : Integer) :
    Integer.ieq i (Integer.unbounded (Integer.ival i)) = true := by
  simp [Integer.ieq, Integer.ival]

/-- The decoded image of a state matches the original field by field. -/
theorem stateMatches_rename (nm : Nat → String) (s : FastState) :
    stateMatches nm s (renameState nm s) := by
  constructor
  · exact forall2_map _ _ (fun p => ⟨rfl, varValEq_normVal p.2⟩) s.vars
  · exact forall2_map _ _ (fun p => ⟨ieq_unbounded p.1, ieq_unbounded p.2⟩) s.heap

/-- The decoded image of a call record matches the original field by field. -/
theorem matches_rename (nm : Nat → String) :
    ∀ n : Nat,
      (∀ c : FastCall, crank c ≤ n → callMatches nm c (renameCall nm c)) ∧
      (∀ s : BlockStep, srank s ≤ n → stepMatches nm s (renameStep nm s)) := by
  intro n
  induction n with
  | zero =>
      constructor
      · intro c hr
        cases c
        simp [crank] at hr
      · intro s hr
        cases s
        simp [srank] at hr
  | succ n ih =>
      constructor
      · intro c hr
        cases c with
        | mk fn es rs steps ee bv =>
            have hrs : srankList steps ≤ n := by
              simp only [crank] at hr
              omega
            have hsteps : ∀ l, srankList l ≤ n →
                stepsMatch nm l (renameSteps nm l) := by
              intro l
              induction l with
              | nil =>
                  intro _
                  simp [renameSteps, stepsMatch]
              | cons s rest ihl =>
                  intro hrl
                  simp only [srankList, max_le_iff] at hrl
                  simp only [renameSteps, stepsMatch]
                  exact ⟨ih.2 s hrl.1, ihl hrl.2⟩
            simp only [renameCall, callMatches]
            exact ⟨trivial, stateMatches_rename nm es, stateMatches_rename nm rs,
              hsteps steps hrs, trivial, trivial⟩
      · intro s hr
        cases s with
        | mk bn st calls =>
            have hrc : crankList calls ≤ n := by
              simp only [srank] at hr
              omega
            have hcalls : ∀ l, crankList l ≤ n →
                callsMatch nm l (renameCalls nm l) := by
              intro l
              induction l with
              | nil =>
                  intro _
                  simp [renameCalls, callsMatch]
              | cons c rest ihl =>
                  intro hrl
                  simp only [crankList, max_le_iff] at hrl
                  simp only [renameCalls, callsMatch]
                  exact ⟨ih.1 c hrl.1, ihl hrl.2⟩
            simp only [renameStep, stepMatches]
            exact ⟨trivial, stateMatches_rename nm st, hcalls calls hrc⟩

/-- C4: encoding a call record to the CBOR wire format and decoding it back
succeeds (given fuel at least the record's nesting rank and pairwise
distinct names within each state) and yields a record equal to the original
field by field: same function name, earlyExit and blocksVisited, states
matching entry by entry under the type-tag-then-payload equality varValEq,
with arbitrary-precision integer payloads preserved by value (the decoded
payloads are the unbounded integers carrying the original numeric
values). -/
theorem claim_C4_call_record_cbor_roundtrip (nm : Nat → String) (c : FastCall)
    (fuel : Nat) (hg : goodCall nm c) (hr : crank c ≤ fuel) :
    cborToCall (callToCBOR nm c) fuel = Except.ok (renameCall nm c) ∧
    callMatches nm c (renameCall nm c) :=
  ⟨(cbor_roundtrip nm fuel).1 c hg hr, (matches_rename nm (crank c)).1 c le_rfl⟩

/-- Witness for C4 at a concrete record holding 101-bit integers. -/
theorem claim_C4_witness :
    goodCall nmW cW4 ∧ crank cW4 ≤ 3 ∧
    (cborToCall (callToCBOR nmW cW4) 3 = Except.ok (renameCall nmW cW4) ∧
     callMatches nmW cW4 (renameCall nmW cW4)) := by
  have h1 : goodCall nmW cW4 := by
    simp [cW4, stW4, goodCall, goodState, goodSteps, goodStep, goodCalls]
  have h2 : crank cW4 ≤ 3 := by
    simp [cW4, crank, srankList, srank, crankList]
  exact ⟨h1, h2, claim_C4_call_record_cbor_roundtrip nmW cW4 3 h1 h2⟩

/-- cborToVarIntVal only ever produces unbounded integers. -/
theorem cborToVarIntVal_unbounded (item : CBOR) (i : Integer)
    (h : cborToVarIntVal item = Except.ok i) : ∃ w : Int, i = Integer.unbounded w := by
  cases item <;> simp [cborToVarIntVal, cborToString, ebind_ok] at h
  case stringItem s =>
    cases hp : parseDec s with
    | none => rw [hp] at h; simp at h
    | some v => rw [hp] at h; simp at h; exact ⟨v, h.symm⟩

/-- cborToVarVal only ever produces booleans or unbounded integers. -/
theorem cborToVarVal_not_bounded (item : CBOR) (x : VarVal)
    (h : cborToVarVal item = Except.ok (some x)) :
    ∀ w c : Nat, x ≠ VarVal.int (Integer.bounded w c) := by
  cases item <;> simp [cborToVarVal] at h
  case boolItem b => intro w c; rw [← h]; simp
  case stringItem s =>
    cases hp : parseDec s with
    | none => rw [hp] at h; simp at h
    | some v => rw [hp] at h; simp at h; intro w c; rw [← h]; simp

/-- Membership in the first-wins string-keyed insertion. -/
theorem mem_insertIfAbsent {α : Type} (l : List (String × α)) (k : String)
    (v : α) (p : String × α) (h : p ∈ insertIfAbsent l k v) :
    p ∈ l ∨ p = (k, v) := by
  unfold insertIfAbsent at h
  by_cases hc : (l.find? (fun q => q.1 = k)).isSome
  · rw [if_pos hc] at h; exact Or.inl h
  · rw [if_neg hc] at h
    rcases List.mem_append.mp h with hl | hr
    · exact Or.inl hl
    · exact Or.inr (List.mem_singleton.mp hr)

/-- Membership in the first-wins heap insertion. -/
theorem mem_insertIfAbsentH (l : Heap) (k v : Integer) (p : Integer × Integer)
    (h : p ∈ insertIfAbsentH l k v) : p ∈ l ∨ p = (k, v) := by
  unfold insertIfAbsentH at h
  by_cases hc : (heapGet l k).isSome
  · rw [if_pos hc] at h; exact Or.inl h
  · rw [if_neg hc] at h
    rcases List.mem_append.mp h with hl | hr
    · exact Or.inl hl
    · exact Or.inr (List.mem_singleton.mp hr)

/-- Every address and cell a heap decode produces is unbounded. -/
theorem cborToHeapGo_unbounded :
    ∀ pairs : List (CBOR × CBOR), ∀ acc res : Heap,
      cborToHeapGo pairs acc = Except.ok res →
      (∀ p ∈ acc, (∃ a : Int, p.1 = Integer.unbounded a) ∧
          ∃ w : Int, p.2 = Integer.unbounded w) →
      ∀ p ∈ res, (∃ a : Int, p.1 = Integer.unbounded a) ∧
          ∃ w : Int, p.2 = Integer.unbounded w := by
  intro pairs
  induction pairs with
  | nil =>
      intro acc res h hacc
      simp [cborToHeapGo] at h
      rw [← h]
      exact hacc
  | cons kv rest ih =>
      intro acc res h hacc
      obtain ⟨k, v⟩ := kv
      simp only [cborToHeapGo] at h
      cases hk : cborToString k with
      | error e => rw [hk] at h; simp [ebind_error] at h
      | ok ks =>
          rw [hk] at h
          simp only [ebind_ok] at h
          cases hp : parseDec ks with
          | none => rw [hp] at h; simp at h
          | some a =>
              rw [hp] at h
              simp only [] at h
              cases hv : cborToVarIntVal v with
              | error e => rw [hv] at h; simp [ebind_error] at h
              | ok vi =>
                  rw [hv] at h
                  simp only [ebind_ok] at h
                  refine ih _ res h ?_
                  intro p hp2
                  rcases mem_insertIfAbsentH acc (Integer.unbounded a) vi p hp2
                      with hin | heq
                  · exact hacc p hin
                  · subst heq
                    exact ⟨⟨a, rfl⟩, cborToVarIntVal_unbounded v vi hv⟩

/-- No variable value a variables-map decode produces is bounded. -/
theorem cborToVarMapGo_not_bounded :
    ∀ pairs : List (CBOR × CBOR), ∀ acc res : List (String × VarVal),
      cborToVarMapGo pairs acc = Except.ok res →
      (∀ q ∈ acc, ∀ w c : Nat, q.2 ≠ VarVal.int (Integer.bounded w c)) →
      ∀ q ∈ res, ∀ w c : Nat, q.2 ≠ VarVal.int (Integer.bounded w c) := by
  intro pairs
  induction pairs with
  | nil =>
      intro acc res h hacc
      simp [cborToVarMapGo] at h
      rw [← h]
      exact hacc
  | cons kv rest ih =>
      intro acc res h hacc
      obtain ⟨k, v⟩ := kv
      simp only [cborToVarMapGo] at h
      cases hk : cborToString k with
      | error e => rw [hk] at h; simp [ebind_error] at h
      | ok ks =>
          rw [hk] at h
          simp only [ebind_ok] at h
          cases hv : cborToVarVal v with
          | error e => rw [hv] at h; simp [ebind_error] at h
          | ok vo =>
              rw [hv] at h
              simp only [ebind_ok] at h
              cases vo with
              | none => simp at h
              | some x =>
                  simp only [] at h
                  refine ih _ res h ?_
                  intro q hq w c
                  rcases mem_insertIfAbsent acc ks x q hq with hin | heq
                  · exact hacc q hin w c
                  · subst heq
                    exact cborToVarVal_not_bounded v x hv w c

/-- C10: wire decoding is mode-blind and never produces a bounded value:
cborToVarVal maps a CBOR boolean to the corresponding boolean typed value,
a definite string holding valid decimal text to the unbounded base-10
arbitrary-precision integer it denotes, every other item to the null value,
and never to a bounded integer; and every state cborToState decodes has
only unbounded heap addresses and cells and no bounded variable value
(neither function takes or reads an arithmetic-mode input). -/
theorem claim_C10_wire_decode_unbounded :
    (∀ b : Bool, cborToVarVal (CBOR.boolItem b) = Except.ok (some (VarVal.bool b))) ∧
    (∀ s : String, ∀ i : Int, parseDec s = some i →
        cborToVarVal (CBOR.stringItem s) =
          Except.ok (some (VarVal.int (Integer.unbounded i)))) ∧
    (∀ item : CBOR, (∀ b : Bool, item ≠ CBOR.boolItem b) →
        (∀ s : String, item ≠ CBOR.stringItem s) →
        cborToVarVal item = Except.ok none) ∧
    (∀ item : CBOR, ∀ x : VarVal, cborToVarVal item = Except.ok (some x) →
        ∀ w c : Nat, x ≠ VarVal.int (Integer.bounded w c)) ∧
    (∀ item : CBOR, ∀ st : StateS, cborToState item = Except.ok st →
        (∀ p ∈ st.heap, (∃ a : Int, p.1 = Integer.unbounded a) ∧
            ∃ w : Int, p.2 = Integer.unbounded w) ∧
        (∀ q ∈ st.vars, ∀ w c : Nat, q.2 ≠ VarVal.int (Integer.bounded w c))) := by
  refine ⟨fun b => rfl, ?_, ?_, cborToVarVal_not_bounded, ?_⟩
  · intro s i h
    simp [cborToVarVal, h]
  · intro item hb hs
    cases item <;> simp [cborToVarVal]
    case boolItem b => exact absurd rfl (hb b)
    case stringItem s => exact absurd rfl (hs s)
  · intro item st h
    cases item <;> simp [cborToState] at h
    case mapItem l =>
      match l, h with
      | [(k1, vv), (k2, hv)], h =>
          simp only [cborToState] at h
          cases vv <;> simp at h
          case mapItem vpairs =>
            cases hm : cborToVarMapGo vpairs [] with
            | error e => rw [hm] at h; simp [ebind_error] at h
            | ok vars =>
                rw [hm] at h
                simp only [ebind_ok] at h
                cases hv <;> simp at h
                case mapItem hpairs =>
                  cases hh : cborToHeapGo hpairs [] with
                  | error e => rw [hh] at h; simp [ebind_error] at h
                  | ok heap =>
                      rw [hh] at h
                      simp only [ebind_ok] at h
                      cases h
                      constructor
                      · exact cborToHeapGo_unbounded hpairs [] heap hh
                          (by intro p hp; simp at hp)
                      · exact cborToVarMapGo_not_bounded vpairs [] vars hm
                          (by intro q hq; simp at hq)

/-- Witness for C10 at a concrete string item and a concrete encoded
state. -/
theorem claim_C10_witness :
    parseDec "12" = some 12 ∧
    cborToVarVal (CBOR.stringItem "12") =
      Except.ok (some (VarVal.int (Integer.unbounded 12))) ∧
    cborToState itemW10 = Except.ok stW10 ∧
    (∀ p ∈ stW10.heap, (∃ a : Int, p.1 = Integer.unbounded a) ∧
        ∃ w : Int, p.2 = Integer.unbounded w) := by
  have h1 : parseDec "12" = some 12 := rfl
  have h2 : cborToState itemW10 = Except.ok stW10 := rfl
  exact ⟨h1, claim_C10_wire_decode_unbounded.2.1 "12" 12 h1, h2,
    (claim_C10_wire_decode_unbounded.2.2.2.2 itemW10 stW10 h2).1⟩
